import Mathlib

/-!
Verification of the facebook360_dep render-pipeline orchestration layer.

The Lean definitions below are a shallow embedding of the Python sources in
`scripts/render` (`network.py`, `pipeline.py`, `worker.py`, `config.py`) and the
parts of `scripts/util/system_util.py` they use.  External effects (the
filesystem, the S3 CLI, the RabbitMQ broker, wall-clock time) are passed in as
explicit environment parameters; everything the Python code computes from those
inputs is translated directly.
-/

set_option maxRecDepth 4000

/-! ### Frame names (`network.get_frame_name`, `network.get_frame_range`)

Python: `str(frame).rjust(6, "0")` and
`[get_frame_name(f) for f in range(int(first), int(last) + 1)]`.
Frame numbers are modelled as `Nat` (the Python code always converts the
zero-padded string names with `int(...)` before arithmetic). -/

def get_frame_name (frame : Nat) : String :=
  ⟨List.replicate (6 - (Nat.repr frame).length) '0' ++ (Nat.repr frame).data⟩

def get_frame_range (first last : Nat) : List String :=
  (List.range' first (last + 1 - first)).map get_frame_name

/-! #### Characterisation of `Nat.repr` via `Nat.digits` -/

theorem toDigitsCore_eq_digits (fuel : Nat) :
    ∀ (n : Nat) (acc : List Char), 0 < n → n < 10 ^ fuel →
      Nat.toDigitsCore 10 fuel n acc =
        ((Nat.digits 10 n).map Nat.digitChar).reverse ++ acc := by
  induction fuel with
  | zero =>
      intro n acc hn hlt
      simp at hlt
      omega
  | succ fuel ih =>
      intro n acc hn hlt
      have hd : Nat.digits 10 n = n % 10 :: Nat.digits 10 (n / 10) :=
        Nat.digits_def' (by norm_num) hn
      by_cases hdiv : n / 10 = 0
      · have hlt10 : n < 10 := by omega
        have : Nat.digits 10 n = [n % 10] := by
          rw [hd, hdiv]
          simp
        rw [Nat.toDigitsCore]
        simp [hdiv, this]
      · have hpos : 0 < n / 10 := Nat.pos_of_ne_zero hdiv
        have hlt' : n / 10 < 10 ^ fuel := by
          have h10 : n < 10 ^ fuel * 10 := by
            have hps : 10 ^ (fuel + 1) = 10 ^ fuel * 10 := pow_succ 10 fuel
            omega
          omega
        rw [Nat.toDigitsCore]
        simp only [hdiv, if_false]
        rw [ih (n / 10) _ hpos hlt', hd]
        simp

theorem repr_data_eq (n : Nat) :
    (Nat.repr n).data =
      if n = 0 then ['0'] else ((Nat.digits 10 n).map Nat.digitChar).reverse := by
  by_cases h : n = 0
  · subst h
    rfl
  · have hn : 0 < n := Nat.pos_of_ne_zero h
    have hlt : n < 10 ^ (n + 1) := by
      calc n < 10 ^ n := Nat.lt_pow_self (by norm_num) n
      _ ≤ 10 ^ (n + 1) := Nat.pow_le_pow_right (by norm_num) (Nat.le_succ n)
    have : Nat.repr n = (Nat.toDigitsCore 10 (n + 1) n []).asString := rfl
    rw [this, toDigitsCore_eq_digits (n + 1) n [] hn hlt]
    simp [h, List.asString]

theorem digitChar_isDigit {d : Nat} (hd : d < 10) : (Nat.digitChar d).isDigit = true := by
  interval_cases d <;> decide

theorem repr_chars_digit (n : Nat) : ∀ c ∈ (Nat.repr n).data, c.isDigit = true := by
  intro c hc
  rw [repr_data_eq] at hc
  by_cases h : n = 0
  · simp [h] at hc
    subst hc
    decide
  · simp [h, List.mem_reverse, List.mem_map] at hc
    obtain ⟨d, hd, rfl⟩ := hc
    exact digitChar_isDigit (Nat.digits_lt_base (by norm_num) hd)

theorem isDigit_ne_dot {c : Char} (h : c.isDigit = true) : c ≠ '.' := by
  intro heq
  subst heq
  exact absurd h (by decide)

theorem isDigit_ne_slash {c : Char} (h : c.isDigit = true) : c ≠ '/' := by
  intro heq
  subst heq
  exact absurd h (by decide)

theorem repr_data_ne_nil (n : Nat) : (Nat.repr n).data ≠ [] := by
  rw [repr_data_eq]
  by_cases h : n = 0
  · simp [h]
  · simp [h]
    exact Nat.digits_ne_nil_iff_ne_zero.mpr h

/-! #### Facts about `get_frame_name` -/

theorem get_frame_name_data (n : Nat) :
    (get_frame_name n).data =
      List.replicate (6 - (Nat.repr n).length) '0' ++ (Nat.repr n).data := rfl

theorem get_frame_name_chars_digit (n : Nat) :
    ∀ c ∈ (get_frame_name n).data, c.isDigit = true := by
  intro c hc
  rw [get_frame_name_data] at hc
  rcases List.mem_append.mp hc with h | h
  · rw [List.eq_of_mem_replicate h]
    decide
  · exact repr_chars_digit n c h

theorem get_frame_name_ne_nil (n : Nat) : (get_frame_name n).data ≠ [] := by
  rw [get_frame_name_data]
  intro h
  exact repr_data_ne_nil n (List.append_eq_nil.mp h).2

theorem get_frame_name_length_of_lt (n : Nat) (h : n < 10 ^ 6) :
    (get_frame_name n).length = 6 := by
  have hle : (Nat.repr n).length ≤ 6 := Nat.repr_length n 6 (by norm_num) h
  show (get_frame_name n).data.length = 6
  rw [get_frame_name_data]
  rw [List.length_append, List.length_replicate]
  have : (Nat.repr n).length = (Nat.repr n).data.length := rfl
  omega

/-- C7: for every chunk with `first ≤ last` (frame identifiers being 6-digit
zero-padded names, i.e. `last < 10^6`), `get_frame_range first last` returns
exactly `last - first + 1` consecutive frame names, inclusive of both
endpoints: the `i`-th name is `get_frame_name (first + i)`, and every returned
name is a zero-padded 6-digit name. -/
theorem C7_frame_range_spec (first last : Nat) (h1 : first ≤ last) (h2 : last < 10 ^ 6) :
    (get_frame_range first last).length = last - first + 1 ∧
    (∀ i, i < last - first + 1 →
      (get_frame_range first last)[i]? = some (get_frame_name (first + i))) ∧
    (∀ s ∈ get_frame_range first last, s.length = 6) := by
  refine ⟨?_, ?_, ?_⟩
  · simp [get_frame_range]
    omega
  · intro i hi
    have hlen : i < (List.range' first (last + 1 - first)).length := by
      simp
      omega
    simp [get_frame_range, List.getElem?_map]
    rw [List.getElem?_eq_getElem hlen]
    simp [List.getElem_range']
  · intro s hs
    simp [get_frame_range, List.mem_map] at hs
    obtain ⟨m, hm, rfl⟩ := hs
    obtain ⟨hm1, hm2⟩ := hm
    exact get_frame_name_length_of_lt m (by omega)

/-- Witness for C7 at the concrete chunk `[3, 5]`. -/
theorem C7_witness :
    3 ≤ 5 ∧ 5 < 10 ^ 6 ∧
    ((get_frame_range 3 5).length = 5 - 3 + 1 ∧
     (∀ i, i < 5 - 3 + 1 →
       (get_frame_range 3 5)[i]? = some (get_frame_name (3 + i))) ∧
     (∀ s ∈ get_frame_range 3 5, s.length = 6)) :=
  ⟨by decide, by norm_num, C7_frame_range_spec 3 5 (by decide) (by norm_num)⟩

/-! ### The job-message wire format (`json.dumps` / `json.loads`)

`worker.handle_message` does `msg = json.loads(body)` and, on a handler
exception, `failure` republishes `json.dumps(msg)`.  Job messages are open
string-keyed maps of scalars and scalar lists (`pipeline.run_halted_queue`
serialises the parameter dict with `json.dumps` defaults: separators
`", "` / `": "`).  We model that wire format: scalars are null, booleans,
naturals and strings of printable ASCII characters that need no escaping;
`dumps` renders exactly like `json.dumps` with default options, and `loads`
parses that canonical form (Python's parser is more lenient; the claims only
ever feed it `dumps` output). -/

inductive JScalar
  | null
  | jbool (b : Bool)
  | jnat (n : Nat)
  | jstr (s : String)
deriving DecidableEq, Repr

inductive JVal
  | scalar (v : JScalar)
  | arr (xs : List JScalar)
deriving DecidableEq, Repr

abbrev JMsg := List (String × JVal)

def renderScalar : JScalar → List Char
  | .null => ['n', 'u', 'l', 'l']
  | .jbool true => ['t', 'r', 'u', 'e']
  | .jbool false => ['f', 'a', 'l', 's', 'e']
  | .jnat n => (Nat.repr n).data
  | .jstr s => '"' :: (s.data ++ ['"'])

/-- Renders `", "`-separated continuation items (the tail of a joined list). -/
def sepRender (ren : α → List Char) (xs : List α) : List Char :=
  xs.flatMap (fun x => ',' :: ' ' :: ren x)

def renderVal : JVal → List Char
  | .scalar v => renderScalar v
  | .arr [] => ['[', ']']
  | .arr (x :: xs) => '[' :: (renderScalar x ++ sepRender renderScalar xs ++ [']'])

def renderEntry (kv : String × JVal) : List Char :=
  '"' :: (kv.1.data ++ '"' :: ':' :: ' ' :: renderVal kv.2)

def dumps : JMsg → List Char
  | [] => ['{', '}']
  | e :: es => '{' :: (renderEntry e ++ sepRender renderEntry es ++ ['}'])

def parseStrAux : List Char → Option (List Char × List Char)
  | [] => none
  | c :: rest =>
    if c = '"' then some ([], rest)
    else
      match parseStrAux rest with
      | none => none
      | some (s, r) => some (c :: s, r)

def charDigit (c : Char) : Nat := c.toNat - 48

def digitsVal (cs : List Char) : Nat := cs.foldl (fun a c => a * 10 + charDigit c) 0

def parseScalar (cs : List Char) : Option (JScalar × List Char) :=
  match cs with
  | [] => none
  | c :: rest =>
    if c = 'n' then
      match rest with
      | 'u' :: 'l' :: 'l' :: r => some (.null, r)
      | _ => none
    else if c = 't' then
      match rest with
      | 'r' :: 'u' :: 'e' :: r => some (.jbool true, r)
      | _ => none
    else if c = 'f' then
      match rest with
      | 'a' :: 'l' :: 's' :: 'e' :: r => some (.jbool false, r)
      | _ => none
    else if c = '"' then
      match parseStrAux rest with
      | none => none
      | some (s, r) => some (.jstr ⟨s⟩, r)
    else if c.isDigit then
      some (.jnat (digitsVal ((c :: rest).takeWhile Char.isDigit)),
            (c :: rest).dropWhile Char.isDigit)
    else none

def parseArrRest : Nat → List Char → Option (List JScalar × List Char)
  | 0, cs => if cs.head? = some ']' then some ([], cs.tail) else none
  | fuel + 1, cs =>
    if cs.head? = some ']' then some ([], cs.tail)
    else if cs.head? = some ',' ∧ cs.tail.head? = some ' ' then
      (parseScalar cs.tail.tail).bind fun vr =>
        (parseArrRest fuel vr.2).map fun vsr => (vr.1 :: vsr.1, vsr.2)
    else none

def parseVal (fuel : Nat) (cs : List Char) : Option (JVal × List Char) :=
  match cs with
  | [] => none
  | c :: rest =>
    if c = '[' then
      if rest.head? = some ']' then some (.arr [], rest.tail)
      else
        (parseScalar rest).bind fun vr =>
          (parseArrRest fuel vr.2).map fun vsr => (.arr (vr.1 :: vsr.1), vsr.2)
    else
      (parseScalar cs).map fun vr => (.scalar vr.1, vr.2)

def parseEntry (fuel : Nat) (cs : List Char) : Option ((String × JVal) × List Char) :=
  match cs with
  | '"' :: rest =>
    match parseStrAux rest with
    | none => none
    | some (k, r) =>
      match r with
      | ':' :: ' ' :: r' =>
        (parseVal fuel r').map fun vr => ((⟨k⟩, vr.1), vr.2)
      | _ => none
  | _ => none

def parseEntriesRest (fuelV : Nat) : Nat → List Char → Option (JMsg × List Char)
  | 0, cs => if cs.head? = some '}' then some ([], cs.tail) else none
  | fuelE + 1, cs =>
    if cs.head? = some '}' then some ([], cs.tail)
    else if cs.head? = some ',' ∧ cs.tail.head? = some ' ' then
      (parseEntry fuelV cs.tail.tail).bind fun er =>
        (parseEntriesRest fuelV fuelE er.2).map fun esr => (er.1 :: esr.1, esr.2)
    else none

def parseMsg (fuel : Nat) (cs : List Char) : Option (JMsg × List Char) :=
  match cs with
  | '{' :: rest =>
    if rest.head? = some '}' then some ([], rest.tail)
    else
      (parseEntry fuel rest).bind fun er =>
        (parseEntriesRest fuel fuel er.2).map fun esr => (er.1 :: esr.1, esr.2)
  | _ => none

def loads (cs : List Char) : Option JMsg :=
  match parseMsg cs.length cs with
  | some (m, []) => some m
  | _ => none

/-- Characters `json.dumps` emits verbatim inside a string literal (printable
ASCII, no quote, no backslash); job-message keys and path/name values are of
this shape. -/
def wfChar (c : Char) : Bool :=
  32 ≤ c.toNat && c.toNat ≤ 126 && c ≠ '"' && c ≠ '\\'

def wfStr (s : String) : Bool := s.data.all wfChar

def wfScalar : JScalar → Bool
  | .jstr s => wfStr s
  | _ => true

def wfVal : JVal → Bool
  | .scalar v => wfScalar v
  | .arr xs => xs.all wfScalar

def wfMsg (m : JMsg) : Bool :=
  m.all (fun kv => wfStr kv.1 && wfVal kv.2) && (m.map Prod.fst).Nodup

/-! #### Round trip: `loads (dumps m) = some m` -/

theorem takeWhile_append_all {α} (p : α → Bool) (l l' : List α) (h : ∀ a ∈ l, p a = true) :
    (l ++ l').takeWhile p = l ++ l'.takeWhile p := by
  induction l with
  | nil => simp
  | cons x xs ih =>
      have hx : p x = true := h x (by simp)
      simp only [List.cons_append, List.takeWhile_cons_of_pos hx]
      rw [ih (fun a ha => h a (by simp [ha]))]

theorem dropWhile_append_all {α} (p : α → Bool) (l l' : List α) (h : ∀ a ∈ l, p a = true) :
    (l ++ l').dropWhile p = l'.dropWhile p := by
  induction l with
  | nil => simp
  | cons x xs ih =>
      have hx : p x = true := h x (by simp)
      simp only [List.cons_append, List.dropWhile_cons_of_pos hx]
      exact ih (fun a ha => h a (by simp [ha]))

theorem parseStrAux_round (s rest : List Char) (h : ∀ c ∈ s, c ≠ '"') :
    parseStrAux (s ++ '"' :: rest) = some (s, rest) := by
  induction s with
  | nil => simp [parseStrAux]
  | cons c cs ih =>
      have hc : c ≠ '"' := h c (by simp)
      simp only [List.cons_append, parseStrAux, if_neg hc, List.append_eq]
      rw [ih (fun a ha => h a (by simp [ha]))]

theorem charDigit_digitChar : ∀ d, d < 10 → charDigit (Nat.digitChar d) = d := by decide

theorem foldl_digitChars (ds : List Nat) (h : ∀ d ∈ ds, d < 10) :
    ∀ a : Nat,
      ((ds.map Nat.digitChar).reverse).foldl (fun acc c => acc * 10 + charDigit c) a
        = a * 10 ^ ds.length + Nat.ofDigits 10 ds := by
  induction ds with
  | nil => intro a; simp [Nat.ofDigits]
  | cons d tl ih =>
      intro a
      have hd : d < 10 := h d (by simp)
      simp only [List.map_cons, List.reverse_cons, List.foldl_append, List.foldl_cons,
        List.foldl_nil]
      rw [ih (fun x hx => h x (by simp [hx])) a]
      rw [charDigit_digitChar d hd, Nat.ofDigits_cons, List.length_cons, pow_succ]
      ring

theorem digitsVal_repr (n : Nat) : digitsVal (Nat.repr n).data = n := by
  rw [digitsVal, repr_data_eq]
  by_cases h : n = 0
  · simp [h, charDigit]
  · simp only [h, if_false]
    rw [foldl_digitChars (Nat.digits 10 n)
      (fun d hd => Nat.digits_lt_base (by norm_num) hd) 0]
    simp [Nat.ofDigits_digits]

theorem wfChar_ne_quote {c : Char} (h : wfChar c = true) : c ≠ '"' := by
  intro heq
  subst heq
  exact absurd h (by decide)

theorem repr_head_digit (n : Nat) :
    ∃ c cs, (Nat.repr n).data = c :: cs ∧ c.isDigit = true ∧
      (∀ x ∈ cs, x.isDigit = true) := by
  cases hr : (Nat.repr n).data with
  | nil => exact absurd hr (repr_data_ne_nil n)
  | cons c cs =>
      refine ⟨c, cs, rfl, ?_, ?_⟩
      · exact repr_chars_digit n c (by rw [hr]; simp)
      · intro x hx
        exact repr_chars_digit n x (by rw [hr]; simp [hx])

theorem isDigit_ne {c c' : Char} (h : c.isDigit = true) (h' : c'.isDigit = false) :
    c ≠ c' := by
  intro heq
  rw [heq] at h
  rw [h] at h'
  exact absurd h' (by simp)

theorem parseScalar_round (v : JScalar) (rest : List Char) (hwf : wfScalar v = true)
    (hrest : ∀ c, rest.head? = some c → c.isDigit = false) :
    parseScalar (renderScalar v ++ rest) = some (v, rest) := by
  cases v with
  | null => simp [renderScalar, parseScalar]
  | jbool b => cases b <;> simp [renderScalar, parseScalar]
  | jnat n =>
      obtain ⟨c, cs, hdata, hcdig, hcsdig⟩ := repr_head_digit n
      have halldig : ∀ x ∈ (Nat.repr n).data, x.isDigit = true := repr_chars_digit n
      have hne_n : c ≠ 'n' := isDigit_ne hcdig (by decide)
      have hne_t : c ≠ 't' := isDigit_ne hcdig (by decide)
      have hne_f : c ≠ 'f' := isDigit_ne hcdig (by decide)
      have hne_q : c ≠ '"' := isDigit_ne hcdig (by decide)
      have htake : ((Nat.repr n).data ++ rest).takeWhile Char.isDigit = (Nat.repr n).data := by
        rw [takeWhile_append_all Char.isDigit _ _ halldig]
        cases rest with
        | nil => simp
        | cons r rs =>
            have : r.isDigit = false := hrest r (by simp)
            simp [List.takeWhile_cons_of_neg, this]
      have hdrop : ((Nat.repr n).data ++ rest).dropWhile Char.isDigit = rest := by
        rw [dropWhile_append_all Char.isDigit _ _ halldig]
        cases rest with
        | nil => simp
        | cons r rs =>
            have : r.isDigit = false := hrest r (by simp)
            simp [List.dropWhile_cons_of_neg, this]
      have hres : renderScalar (JScalar.jnat n) ++ rest = c :: (cs ++ rest) := by
        simp [renderScalar, hdata]
      rw [hres]
      simp only [parseScalar, if_neg hne_n, if_neg hne_t, if_neg hne_f, if_neg hne_q,
        if_pos hcdig]
      have hlist : c :: (cs ++ rest) = (Nat.repr n).data ++ rest := by
        rw [hdata]; simp
      rw [hlist, htake, hdrop, digitsVal_repr]
  | jstr s =>
      have hq : ∀ c ∈ s.data, c ≠ '"' := by
        intro c hc
        have : wfChar c = true := by
          simp [wfScalar, wfStr, List.all_eq_true] at hwf
          exact hwf c hc
        exact wfChar_ne_quote this
      have hres : renderScalar (JScalar.jstr s) ++ rest = '"' :: (s.data ++ '"' :: rest) := by
        simp [renderScalar]
      rw [hres]
      simp only [parseScalar, if_neg (by decide : ('"' : Char) ≠ 'n'),
        if_neg (by decide : ('"' : Char) ≠ 't'), if_neg (by decide : ('"' : Char) ≠ 'f'),
        if_pos rfl]
      rw [parseStrAux_round s.data rest hq]
      simp

theorem renderScalar_head (v : JScalar) :
    ∃ c cs, renderScalar v = c :: cs ∧ c ≠ '[' ∧ c ≠ ']' := by
  cases v with
  | null => exact ⟨'n', _, rfl, by decide, by decide⟩
  | jbool b => cases b
                <;> [exact ⟨'f', _, rfl, by decide, by decide⟩;
                     exact ⟨'t', _, rfl, by decide, by decide⟩]
  | jnat n =>
      obtain ⟨c, cs, hdata, hdig, _⟩ := repr_head_digit n
      exact ⟨c, cs, by simp [renderScalar, hdata],
        isDigit_ne hdig (by decide), isDigit_ne hdig (by decide)⟩
  | jstr s => exact ⟨'"', _, rfl, by decide, by decide⟩

theorem sepRender_scalar_head (xs : List JScalar) (rest : List Char) :
    ∀ c, (sepRender renderScalar xs ++ ']' :: rest).head? = some c → c.isDigit = false := by
  intro c hc
  cases xs with
  | nil => simp [sepRender] at hc; subst hc; decide
  | cons x xs => simp [sepRender] at hc; subst hc; decide

theorem parseArrRest_cons_step (fuel : Nat) (L : List Char) :
    parseArrRest (fuel + 1) (',' :: ' ' :: L) =
      (parseScalar L).bind fun vr =>
        (parseArrRest fuel vr.2).map fun vsr => (vr.1 :: vsr.1, vsr.2) := by
  simp [parseArrRest]

theorem parseArrRest_round :
    ∀ (fuel : Nat) (xs : List JScalar) (rest : List Char),
      (∀ v ∈ xs, wfScalar v = true) → xs.length ≤ fuel →
      parseArrRest fuel (sepRender renderScalar xs ++ ']' :: rest) = some (xs, rest) := by
  intro fuel
  induction fuel with
  | zero =>
      intro xs rest hwf hlen
      have : xs = [] := List.length_eq_zero.mp (Nat.le_zero.mp hlen)
      subst this
      simp [sepRender, parseArrRest]
  | succ fuel ih =>
      intro xs rest hwf hlen
      cases xs with
      | nil => simp [sepRender, parseArrRest]
      | cons x xs =>
          have hx : wfScalar x = true := hwf x (by simp)
          have hseq : sepRender renderScalar (x :: xs) ++ ']' :: rest
              = ',' :: ' ' :: (renderScalar x ++ (sepRender renderScalar xs ++ ']' :: rest)) := by
            simp [sepRender]
          rw [hseq, parseArrRest_cons_step]
          rw [parseScalar_round x _ hx (sepRender_scalar_head xs rest)]
          rw [Option.some_bind]
          rw [ih xs rest (fun v hv => hwf v (by simp [hv]))
            (by simp at hlen; omega)]
          simp

/-- Fuel needed by the array parser for one value. -/
def valFuelNeed : JVal → Nat
  | .scalar _ => 0
  | .arr xs => xs.length

theorem parseVal_round (fuel : Nat) (v : JVal) (rest : List Char)
    (hwf : wfVal v = true) (hfuel : valFuelNeed v ≤ fuel)
    (hrest : ∀ c, rest.head? = some c → c.isDigit = false) :
    parseVal fuel (renderVal v ++ rest) = some (v, rest) := by
  cases v with
  | scalar s =>
      obtain ⟨c, cs, hdata, hlb, _⟩ := renderScalar_head s
      have : renderVal (JVal.scalar s) ++ rest = c :: (cs ++ rest) := by
        simp [renderVal, hdata]
      rw [this]
      simp only [parseVal, if_neg hlb]
      have hback : c :: (cs ++ rest) = renderScalar s ++ rest := by
        rw [hdata]; simp
      rw [hback, parseScalar_round s rest (by simpa [wfVal] using hwf) hrest]
      rfl
  | arr xs =>
      cases xs with
      | nil =>
          simp [renderVal, parseVal]
      | cons x xs =>
          have hx : wfScalar x = true := by
            simp [wfVal, List.all_eq_true] at hwf
            exact hwf.1
          have hxs : ∀ v ∈ xs, wfScalar v = true := by
            simp [wfVal, List.all_eq_true] at hwf
            exact fun v hv => hwf.2 v hv
          have hassoc : renderVal (JVal.arr (x :: xs)) ++ rest
              = '[' :: (renderScalar x ++ (sepRender renderScalar xs ++ ']' :: rest)) := by
            simp [renderVal]
          rw [hassoc]
          obtain ⟨c, cs, hdata, _, hrb⟩ := renderScalar_head x
          simp only [parseVal, if_pos rfl]
          have hhead : (renderScalar x ++ (sepRender renderScalar xs ++ ']' :: rest)).head?
              = some c := by
            rw [hdata]; simp
          rw [hhead]
          rw [if_neg (by simp [hrb] : ¬ (some c = some (']' : Char)))]
          rw [parseScalar_round x _ hx (sepRender_scalar_head xs rest)]
          rw [Option.some_bind]
          rw [parseArrRest_round fuel xs rest hxs
            (by simp [valFuelNeed] at hfuel; omega)]
          simp

theorem wfStr_ne_quote {s : String} (h : wfStr s = true) : ∀ c ∈ s.data, c ≠ '"' := by
  intro c hc
  simp [wfStr, List.all_eq_true] at h
  exact wfChar_ne_quote (h c hc)

theorem parseEntry_round (fuel : Nat) (kv : String × JVal) (rest : List Char)
    (hk : wfStr kv.1 = true) (hv : wfVal kv.2 = true) (hfuel : valFuelNeed kv.2 ≤ fuel)
    (hrest : ∀ c, rest.head? = some c → c.isDigit = false) :
    parseEntry fuel (renderEntry kv ++ rest) = some (kv, rest) := by
  obtain ⟨k, v⟩ := kv
  have hassoc : renderEntry (k, v) ++ rest
      = '"' :: (k.data ++ '"' :: ':' :: ' ' :: (renderVal v ++ rest)) := by
    simp [renderEntry]
  rw [hassoc]
  simp only [parseEntry]
  rw [parseStrAux_round k.data _ (wfStr_ne_quote hk)]
  simp [parseVal_round fuel v rest hv hfuel hrest]

theorem sepRender_entry_head (es : JMsg) (rest : List Char) :
    ∀ c, (sepRender renderEntry es ++ '}' :: rest).head? = some c → c.isDigit = false := by
  intro c hc
  cases es with
  | nil => simp [sepRender] at hc; subst hc; decide
  | cons e es => simp [sepRender] at hc; subst hc; decide

theorem parseEntriesRest_cons_step (fuelV fuelE : Nat) (L : List Char) :
    parseEntriesRest fuelV (fuelE + 1) (',' :: ' ' :: L) =
      (parseEntry fuelV L).bind fun er =>
        (parseEntriesRest fuelV fuelE er.2).map fun esr => (er.1 :: esr.1, esr.2) := by
  simp [parseEntriesRest]

theorem parseEntriesRest_round (fuelV : Nat) :
    ∀ (fuelE : Nat) (es : JMsg) (rest : List Char),
      (∀ kv ∈ es, wfStr kv.1 = true ∧ wfVal kv.2 = true ∧ valFuelNeed kv.2 ≤ fuelV) →
      es.length ≤ fuelE →
      parseEntriesRest fuelV fuelE (sepRender renderEntry es ++ '}' :: rest)
        = some (es, rest) := by
  intro fuelE
  induction fuelE with
  | zero =>
      intro es rest hwf hlen
      have : es = [] := List.length_eq_zero.mp (Nat.le_zero.mp hlen)
      subst this
      simp [sepRender, parseEntriesRest]
  | succ fuelE ih =>
      intro es rest hwf hlen
      cases es with
      | nil => simp [sepRender, parseEntriesRest]
      | cons e es =>
          obtain ⟨hk, hv, hf⟩ := hwf e (by simp)
          have hseq : sepRender renderEntry (e :: es) ++ '}' :: rest
              = ',' :: ' ' :: (renderEntry e ++ (sepRender renderEntry es ++ '}' :: rest)) := by
            simp [sepRender]
          rw [hseq, parseEntriesRest_cons_step]
          rw [parseEntry_round fuelV e _ hk hv hf (sepRender_entry_head es rest)]
          rw [Option.some_bind]
          rw [ih es rest (fun kv hkv => hwf kv (by simp [hkv])) (by simp at hlen; omega)]
          simp

theorem parseMsg_round (fuel : Nat) (m : JMsg) (rest : List Char)
    (hwf : ∀ kv ∈ m, wfStr kv.1 = true ∧ wfVal kv.2 = true ∧ valFuelNeed kv.2 ≤ fuel)
    (hlen : m.length ≤ fuel) :
    parseMsg fuel (dumps m ++ rest) = some (m, rest) := by
  cases m with
  | nil => simp [dumps, parseMsg]
  | cons e es =>
      obtain ⟨hk, hv, hf⟩ := hwf e (by simp)
      have hassoc : dumps (e :: es) ++ rest
          = '{' :: (renderEntry e ++ (sepRender renderEntry es ++ '}' :: rest)) := by
        simp [dumps]
      rw [hassoc]
      simp only [parseMsg]
      have hhead : (renderEntry e ++ (sepRender renderEntry es ++ '}' :: rest)).head?
          = some '"' := by
        simp [renderEntry]
      rw [hhead]
      rw [if_neg (by decide : ¬ (some ('"' : Char) = some ('}' : Char)))]
      rw [parseEntry_round fuel e _ hk hv hf (sepRender_entry_head es rest)]
      rw [Option.some_bind]
      rw [parseEntriesRest_round fuel fuel es rest
        (fun kv hkv => hwf kv (by simp [hkv])) (by simp at hlen; omega)]
      simp

/-! #### Fuel bounds: `(dumps m).length` is enough fuel for `loads` -/

theorem renderScalar_length_pos (v : JScalar) : 1 ≤ (renderScalar v).length := by
  cases v with
  | null => decide
  | jbool b => cases b <;> decide
  | jnat n =>
      simp only [renderScalar]
      cases hr : (Nat.repr n).data with
      | nil => exact absurd hr (repr_data_ne_nil n)
      | cons c cs => simp
  | jstr s => simp [renderScalar]

theorem sepRender_length_ge {α} (ren : α → List Char) (xs : List α) :
    xs.length ≤ (sepRender ren xs).length := by
  induction xs with
  | nil => simp [sepRender]
  | cons x xs ih =>
      simp only [sepRender, List.flatMap_cons, List.length_append, List.length_cons]
      simp only [sepRender] at ih
      omega

theorem valFuelNeed_le_renderVal (v : JVal) : valFuelNeed v ≤ (renderVal v).length := by
  cases v with
  | scalar s => simp [valFuelNeed]
  | arr xs =>
      cases xs with
      | nil => simp [valFuelNeed, renderVal]
      | cons x xs =>
          simp only [valFuelNeed, renderVal, List.length_cons, List.length_append]
          have := sepRender_length_ge renderScalar xs
          omega

theorem renderVal_le_renderEntry (kv : String × JVal) :
    (renderVal kv.2).length ≤ (renderEntry kv).length := by
  obtain ⟨k, v⟩ := kv
  simp only [renderEntry, List.length_cons, List.length_append]
  omega

theorem mem_sepRender_length {α} (ren : α → List Char) (xs : List α) (x : α) (hx : x ∈ xs) :
    (ren x).length ≤ (sepRender ren xs).length := by
  induction xs with
  | nil => simp at hx
  | cons y ys ih =>
      simp only [sepRender, List.flatMap_cons, List.length_append, List.length_cons]
      rcases List.mem_cons.mp hx with rfl | hmem
      · omega
      · have := ih hmem
        simp only [sepRender] at this
        omega

theorem renderEntry_le_dumps (m : JMsg) (kv : String × JVal) (h : kv ∈ m) :
    (renderEntry kv).length ≤ (dumps m).length := by
  cases m with
  | nil => simp at h
  | cons e es =>
      simp only [dumps, List.length_cons, List.length_append]
      rcases List.mem_cons.mp h with rfl | hmem
      · omega
      · have := mem_sepRender_length renderEntry es kv hmem
        omega

theorem msg_length_le_dumps (m : JMsg) : m.length ≤ (dumps m).length := by
  cases m with
  | nil => simp [dumps]
  | cons e es =>
      simp only [dumps, List.length_cons, List.length_append]
      have := sepRender_length_ge renderEntry es
      omega

/-- The round trip at the heart of the worker retry path: parsing a canonical
job-message body and re-serialising it reproduces the body. -/
theorem loads_dumps (m : JMsg) (hwf : wfMsg m = true) : loads (dumps m) = some m := by
  have hwf' : ∀ kv ∈ m, wfStr kv.1 = true ∧ wfVal kv.2 = true ∧
      valFuelNeed kv.2 ≤ (dumps m).length := by
    intro kv hkv
    simp only [wfMsg, Bool.and_eq_true, List.all_eq_true] at hwf
    refine ⟨(hwf.1 kv hkv).1, (hwf.1 kv hkv).2, ?_⟩
    calc valFuelNeed kv.2 ≤ (renderVal kv.2).length := valFuelNeed_le_renderVal kv.2
      _ ≤ (renderEntry kv).length := renderVal_le_renderEntry kv
      _ ≤ (dumps m).length := renderEntry_le_dumps m kv hkv
  have hlen : m.length ≤ (dumps m).length := msg_length_le_dumps m
  have : parseMsg (dumps m).length (dumps m ++ []) = some (m, []) :=
    parseMsg_round (dumps m).length m [] hwf' hlen
  rw [List.append_nil] at this
  simp [loads, this]

/-! ### Worker failure path (`worker.failure`, `worker.handle_message`)

`worker.handle_message` parses the delivered body with `json.loads` (outside
its `try`), dispatches to the handler inside the `try`, and schedules
`success` on a normal return or `failure` on any exception.  `success` does
`basic_ack` and publishes the fixed token `"Completed!"` to the response
queue; `failure` does `basic_reject` and publishes `json.dumps(msg)` back to
the work queue (persistent).  Both are no-ops when the channel is closed.
The handlers copy the parsed dict before mutating (`msg_cp = copy(msg)`), so
the dict `failure` serialises is the parsed dict unchanged; the handler's
outcome is abstracted as the `handlerRaises` flag. -/

inductive WorkerAction
  | basic_ack
  | publishResponse (body : List Char)
  | basic_reject
  | publishWork (body : List Char)
deriving DecidableEq, Repr

namespace Worker

def success (channelOpen : Bool) : List WorkerAction :=
  if channelOpen then
    [WorkerAction.basic_ack,
     WorkerAction.publishResponse "Completed!".data]
  else []

def failure (channelOpen : Bool) (msg : JMsg) : List WorkerAction :=
  if channelOpen then
    [WorkerAction.basic_reject,
     WorkerAction.publishWork (dumps msg)]
  else []

def handle_message (channelOpen handlerRaises : Bool) (body : List Char) :
    List WorkerAction :=
  match loads body with
  | none => []
  | some msg =>
    if handlerRaises then Worker.failure channelOpen msg
    else Worker.success channelOpen

end Worker

def isPublishWork : WorkerAction → Bool
  | .publishWork _ => true
  | _ => false

/-- C1: for every (well-formed, canonically serialised) job message whose
handler raises an exception, the worker's failure path republishes the same
message onto the work queue exactly once per failure, byte-identical to the
body it received: the work-queue publications of `handle_message` are exactly
`[publishWork body]` where `body` is the received body. -/
theorem C1_failure_republishes_byte_identical (m : JMsg) (hwf : wfMsg m = true) :
    (Worker.handle_message true true (dumps m)).filter isPublishWork
      = [WorkerAction.publishWork (dumps m)] := by
  rw [Worker.handle_message, loads_dumps m hwf]
  simp [Worker.failure, isPublishWork]

def msgEx : JMsg :=
  [("app", .scalar (.jstr "Resize: Color")),
   ("first", .scalar (.jstr "000000")),
   ("last", .scalar (.jstr "000002")),
   ("level", .scalar (.jnat 2)),
   ("dst_level", .arr [.jnat 0, .jnat 1]),
   ("threshold", .scalar .null),
   ("force_recompute", .scalar (.jbool false))]

/-- Witness for C1 at a concrete resize job message. -/
theorem C1_witness :
    wfMsg msgEx = true ∧
    (Worker.handle_message true true (dumps msgEx)).filter isPublishWork
      = [WorkerAction.publishWork (dumps msgEx)] :=
  ⟨by decide, C1_failure_republishes_byte_identical msgEx (by decide)⟩

/-! ### The Controller wait loop (`pipeline.Pipeline.run_halted_queue`)

The `while queue_size != len(frame_chunks)` loop sleeps one second per
iteration, then reads the response-queue depth (`queue_size`) and the
work-queue consumer count (`num_workers`).  A tick where `num_workers != 0`
clears `no_worker_period`; a tick where it is zero starts the timer at the
current time if unset and raises once `time.time() - no_worker_period >
config.NO_WORKER_TIMEOUT`.  Time is modelled discretely: the iteration that
processes the `i`-th broker sample happens at time `i + 1` (one `sleep(1.0)`
per iteration), and the stream of broker reads is the explicit `samples`
list.  `qs` carries the most recently read queue size (checked at the top of
the loop), `t` the current time, `noW` the value of `no_worker_period`. -/

def NO_WORKER_TIMEOUT : Nat := 180

structure Sample where
  queue_size : Nat
  num_workers : Nat
deriving DecidableEq, Repr

inductive WaitResult
  | completed (t : Nat)
  | raised (t : Nat)
  | outOfSamples (t : Nat)
deriving DecidableEq, Repr

def wait_loop (total : Nat) : Nat → Nat → Option Nat → List Sample → WaitResult
  | qs, t, _, [] => if qs = total then .completed t else .outOfSamples t
  | qs, t, noW, s :: rest =>
    if qs = total then .completed t
    else if s.num_workers = 0 then
      if t + 1 - (noW.getD (t + 1)) > NO_WORKER_TIMEOUT then .raised (t + 1)
      else wait_loop total s.queue_size (t + 1) (some (noW.getD (t + 1))) rest
    else wait_loop total s.queue_size (t + 1) none rest

/-- The first `n` samples of `l` exist and all report zero consumers. -/
def zeroPre (n : Nat) (l : List Sample) : Prop :=
  n ≤ l.length ∧ ∀ s ∈ l.take n, s.num_workers = 0

theorem raise_from_timer :
    ∀ (l : List Sample) (k total qs t u : Nat),
      qs ≠ total →
      (∀ s ∈ l.take k, s.num_workers = 0 ∧ s.queue_size ≠ total) →
      1 ≤ k → k ≤ l.length →
      u ≤ t + 1 → u + NO_WORKER_TIMEOUT + 1 ≤ t + k →
      ∃ t', t' ≤ t + k ∧ wait_loop total qs t (some u) l = .raised t' := by
  intro l
  induction l with
  | nil =>
      intro k total qs t u _ _ hk1 hklen _ _
      simp at hklen
      omega
  | cons z rest ih =>
      intro k total qs t u hqs htake hk1 hklen hu hraise
      obtain ⟨k', rfl⟩ : ∃ k', k = k' + 1 := ⟨k - 1, by omega⟩
      obtain ⟨hzw, hzq⟩ := htake z (by simp)
      simp only [wait_loop, if_neg hqs, if_pos hzw, Option.getD_some]
      by_cases hfire : t + 1 - u > NO_WORKER_TIMEOUT
      · rw [if_pos hfire]
        exact ⟨t + 1, by omega, rfl⟩
      · rw [if_neg hfire]
        obtain ⟨t', ht', heq⟩ := ih k' total z.queue_size (t + 1) u hzq
          (fun s hs => htake s (by simpa using List.mem_cons_of_mem z hs))
          (by simp [NO_WORKER_TIMEOUT] at hfire hraise ⊢; omega)
          (by simp at hklen; omega)
          (by omega)
          (by omega)
        exact ⟨t', by omega, heq⟩

theorem raise_from_zeros (l : List Sample) (total qs t : Nat) (noW : Option Nat)
    (hqs : qs ≠ total)
    (htake : ∀ s ∈ l.take (NO_WORKER_TIMEOUT + 2),
      s.num_workers = 0 ∧ s.queue_size ≠ total)
    (hlen : NO_WORKER_TIMEOUT + 2 ≤ l.length)
    (hnoW : ∀ u, noW = some u → u ≤ t + 1) :
    ∃ t', t' ≤ t + NO_WORKER_TIMEOUT + 2 ∧ wait_loop total qs t noW l = .raised t' := by
  cases noW with
  | some u =>
      obtain ⟨t', ht', heq⟩ := raise_from_timer l (NO_WORKER_TIMEOUT + 2) total qs t u hqs
        htake (by omega) hlen (hnoW u rfl) (by have := hnoW u rfl; omega)
      exact ⟨t', by omega, heq⟩
  | none =>
      cases l with
      | nil => simp at hlen
      | cons z rest =>
          obtain ⟨hzw, hzq⟩ := htake z (by simp)
          simp only [wait_loop, if_neg hqs, if_pos hzw, Option.getD_none]
          rw [if_neg (by omega)]
          obtain ⟨t', ht', heq⟩ := raise_from_timer rest (NO_WORKER_TIMEOUT + 1) total
            z.queue_size (t + 1) (t + 1) hzq
            (fun s hs => htake s (by simpa using List.mem_cons_of_mem z hs))
            (by omega)
            (by simp at hlen; omega)
            (by omega)
            (by omega)
          exact ⟨t', by omega, heq⟩

theorem raise_through_prefix :
    ∀ (pre : List Sample) (total qs t : Nat) (noW : Option Nat) (zs post : List Sample),
      qs ≠ total →
      (∀ s ∈ pre, s.queue_size ≠ total) →
      (∀ s ∈ zs, s.num_workers = 0 ∧ s.queue_size ≠ total) →
      NO_WORKER_TIMEOUT + 2 ≤ zs.length →
      (∀ u, noW = some u → u ≤ t + 1) →
      ∃ t', t' ≤ t + pre.length + NO_WORKER_TIMEOUT + 2 ∧
        wait_loop total qs t noW (pre ++ (zs ++ post)) = .raised t' := by
  intro pre
  induction pre with
  | nil =>
      intro total qs t noW zs post hqs _ hzs hzlen hnoW
      obtain ⟨t', ht', heq⟩ := raise_from_zeros (zs ++ post) total qs t noW hqs
        (by
          intro s hs
          refine hzs s ?_
          rw [List.take_append_of_le_length hzlen] at hs
          exact List.take_subset _ _ hs)
        (by simp; omega) hnoW
      exact ⟨t', by simpa using ht', by simpa using heq⟩
  | cons p pre ih =>
      intro total qs t noW zs post hqs hpre hzs hzlen hnoW
      have hpq : p.queue_size ≠ total := hpre p (by simp)
      simp only [List.cons_append, wait_loop, if_neg hqs]
      by_cases hpw : p.num_workers = 0
      · rw [if_pos hpw]
        by_cases hfire : t + 1 - (noW.getD (t + 1)) > NO_WORKER_TIMEOUT
        · rw [if_pos hfire]
          refine ⟨t + 1, ?_, rfl⟩
          simp only [List.length_cons]
          omega
        · rw [if_neg hfire]
          obtain ⟨t', ht', heq⟩ := ih total p.queue_size (t + 1)
            (some (noW.getD (t + 1))) zs post hpq
            (fun s hs => hpre s (by simp [hs])) hzs hzlen
            (by
              intro u hu
              cases hnw : noW with
              | none => rw [hnw] at hu; simp at hu; omega
              | some w =>
                  have := hnoW w hnw
                  rw [hnw] at hu
                  simp at hu
                  omega)
          refine ⟨t', ?_, heq⟩
          simp only [List.length_cons]
          omega
      · rw [if_neg hpw]
        obtain ⟨t', ht', heq⟩ := ih total p.queue_size (t + 1) none zs post hpq
          (fun s hs => hpre s (by simp [hs])) hzs hzlen
          (by intro u hu; simp at hu)
        refine ⟨t', ?_, heq⟩
        simp only [List.length_cons]
        omega

theorem no_raise_aux :
    ∀ (samples : List Sample) (total qs t : Nat) (noW : Option Nat),
      (∀ k, ¬ zeroPre (NO_WORKER_TIMEOUT + 2) (samples.drop k)) →
      (∀ u, noW = some u → u ≤ t ∧
        ¬ zeroPre (u + NO_WORKER_TIMEOUT + 1 - t) samples) →
      ∀ t', wait_loop total qs t noW samples ≠ .raised t' := by
  intro samples
  induction samples with
  | nil =>
      intro total qs t noW _ _ t'
      simp only [wait_loop]
      split <;> simp
  | cons z rest ih =>
      intro total qs t noW hA hB t'
      have hA' : ∀ k, ¬ zeroPre (NO_WORKER_TIMEOUT + 2) (rest.drop k) := by
        intro k
        have := hA (k + 1)
        simpa using this
      simp only [wait_loop]
      by_cases hqs : qs = total
      · simp [hqs]
      rw [if_neg hqs]
      by_cases hzw : z.num_workers = 0
      · rw [if_pos hzw]
        cases hnw : noW with
        | none =>
            simp only [Option.getD_none]
            rw [if_neg (by omega)]
            refine ih total z.queue_size (t + 1) (some (t + 1)) hA' ?_ t'
            intro u hu
            obtain rfl : u = t + 1 := by simpa using hu.symm
            refine ⟨le_refl _, ?_⟩
            intro hz
            refine hA 0 ?_
            obtain ⟨hzlen, hztake⟩ := hz
            refine ⟨?_, ?_⟩
            · simp only [List.drop_zero, List.length_cons]
              omega
            · intro s hs
              simp only [List.drop_zero] at hs
              have h182 : NO_WORKER_TIMEOUT + 2 = (t + 1 + NO_WORKER_TIMEOUT + 1 - (t + 1)) + 1 := by
                omega
              rw [h182, List.take_succ_cons] at hs
              rcases List.mem_cons.mp hs with rfl | hmem
              · exact hzw
              · exact hztake s hmem
        | some u =>
            obtain ⟨hut, hnz⟩ := hB u hnw
            simp only [Option.getD_some]
            by_cases hfire : t + 1 - u > NO_WORKER_TIMEOUT
            · exfalso
              refine hnz ?_
              have hm : u + NO_WORKER_TIMEOUT + 1 - t ≤ 1 := by omega
              refine ⟨by simp only [List.length_cons]; omega, ?_⟩
              intro s hs
              obtain hm0 | hm1 : u + NO_WORKER_TIMEOUT + 1 - t = 0 ∨
                  u + NO_WORKER_TIMEOUT + 1 - t = 1 := by omega
              · rw [hm0] at hs
                simp at hs
              · rw [hm1] at hs
                simp only [List.take_succ_cons, List.take_zero] at hs
                obtain rfl : s = z := by simpa using hs
                exact hzw
            · rw [if_neg hfire]
              refine ih total z.queue_size (t + 1) (some u) hA' ?_ t'
              intro w hw
              have hwu : w = u := by simpa using hw.symm
              rw [hwu]
              refine ⟨by omega, ?_⟩
              intro hz
              refine hnz ?_
              obtain ⟨hzlen, hztake⟩ := hz
              have hm2 : 2 ≤ u + NO_WORKER_TIMEOUT + 1 - t := by omega
              refine ⟨?_, ?_⟩
              · simp only [List.length_cons]
                omega
              · intro s hs
                have hsplit : u + NO_WORKER_TIMEOUT + 1 - t
                    = (u + NO_WORKER_TIMEOUT + 1 - (t + 1)) + 1 := by omega
                rw [hsplit, List.take_succ_cons] at hs
                rcases List.mem_cons.mp hs with rfl | hmem
                · exact hzw
                · exact hztake s hmem
      · rw [if_neg hzw]
        exact ih total z.queue_size (t + 1) none hA' (by intro u hu; simp at hu) t'

/-- C2: in the Controller's wait loop, if the sampled consumer count is
continuously zero for longer than `NO_WORKER_TIMEOUT` while the completed
count stays below the dispatched count, the loop raises within one poll
interval (one sample) of the threshold elapsing — concretely, a stretch of
`NO_WORKER_TIMEOUT + 2` zero-consumer samples starting at sample index
`pre.length` (whose timer starts at time `pre.length + 1` and whose threshold
elapses at time `pre.length + 1 + NO_WORKER_TIMEOUT`) forces a raise by time
`pre.length + NO_WORKER_TIMEOUT + 2`; and any sample with a non-zero consumer
count resets the timer, so a run with no `NO_WORKER_TIMEOUT + 2`-long
all-zero stretch never raises. -/
theorem C2_no_worker_timeout :
    (∀ (total qs0 : Nat) (pre zs post : List Sample),
        qs0 ≠ total →
        (∀ s ∈ pre, s.queue_size ≠ total) →
        (∀ s ∈ zs, s.num_workers = 0 ∧ s.queue_size ≠ total) →
        NO_WORKER_TIMEOUT + 2 ≤ zs.length →
        ∃ t', t' ≤ pre.length + NO_WORKER_TIMEOUT + 2 ∧
          wait_loop total qs0 0 none (pre ++ (zs ++ post)) = .raised t')
    ∧
    (∀ (total qs0 : Nat) (samples : List Sample),
        (∀ k, ¬ zeroPre (NO_WORKER_TIMEOUT + 2) (samples.drop k)) →
        ∀ t', wait_loop total qs0 0 none samples ≠ .raised t') := by
  constructor
  · intro total qs0 pre zs post h1 h2 h3 h4
    obtain ⟨t', ht', heq⟩ := raise_through_prefix pre total qs0 0 none zs post h1 h2 h3 h4
      (by simp)
    exact ⟨t', by simpa using ht', heq⟩
  · intro total qs0 samples hA t'
    exact no_raise_aux samples total qs0 0 none hA (by intro u hu; simp at hu) t'

/-- Witness for C2 at a run of 182 zero-consumer samples against a dispatch
of 5 chunks. -/
theorem C2_witness :
    (0 : Nat) ≠ 5 ∧
    ∃ t', t' ≤ ([] : List Sample).length + NO_WORKER_TIMEOUT + 2 ∧
      wait_loop 5 0 0 none
        (([] : List Sample) ++ (List.replicate 182 ⟨0, 0⟩ ++ [])) = .raised t' := by
  refine ⟨by decide, ?_⟩
  exact C2_no_worker_timeout.1 5 0 [] (List.replicate 182 ⟨0, 0⟩) [] (by decide)
    (by simp)
    (by
      intro s hs
      have := List.eq_of_mem_replicate hs
      subst this
      exact ⟨rfl, by decide⟩)
    (by decide)

/-! ### Path helpers (`os.path.basename`, `os.path.splitext`)

`basename` keeps everything after the last `/`.  `splitextStem` is the first
component of `os.path.splitext`: it splits at the last dot, unless every
character before that dot is itself a dot (then nothing is split off).  The
pipeline only ever applies `splitextStem` after `basename`, which is how
Python's `splitext` treats its separator handling here. -/

def basename (s : String) : String :=
  ⟨(s.data.reverse.takeWhile (fun c => c != '/')).reverse⟩

def extRevLen (s : String) : Nat :=
  (s.data.reverse.takeWhile (fun c => c != '.')).length

def splitextStem (s : String) : String :=
  if extRevLen s = s.data.length then s
  else
    if ((s.data.reverse.drop (extRevLen s + 1)).reverse).any (fun c => c != '.') then
      ⟨(s.data.reverse.drop (extRevLen s + 1)).reverse⟩
    else s

def frameStem (fn : String) : String := splitextStem (basename fn)

/-! ### Frame chunks and the cache checker
(`pipeline.Pipeline._get_missing_chunks_level`, `_get_missing_chunks`)

`FrameChunk` models the `{"first": ..., "last": ...}` dicts (frame numbers as
`Nat`, converted from their 6-digit names by `int(...)`).  `FsEnv` carries
the external-world lookups the checker performs per destination level:
`camDirs` is `next(os.walk(src))[1]` (`none` when the walk raises),
`sampleExt` the extension sniffed from `get_sample_file` (`none` when that
fails), `dstProtocol` the `Address(dst_dir).protocol`, and `listing` the
result of `network.listdir` (`none` when it raises).  All of these are keyed
by the requested pyramid level (`none` = unleveled destination). -/

structure FrameChunk where
  first : Nat
  last : Nat
deriving DecidableEq, Repr

def chunkDefault : FrameChunk := ⟨0, 0⟩

inductive DstLevel
  | single : Option Nat → DstLevel
  | levels : List Nat → DstLevel
deriving DecidableEq, Repr

structure PParams where
  app : String
  force_recompute : Bool
  dst_level : DstLevel
  output_formats : String
  file_type : String
deriving DecidableEq, Repr

structure FsEnv where
  camDirs : Option Nat → Option (List String)
  sampleExt : Option Nat → Option String
  dstProtocol : Option Nat → Option String
  listing : Option Nat → Option (List String)

/-- `network.get_frame_fns`: expected per-frame file names.  Compressed
destinations expect one `<frame>.tar` per frame; uncompressed ones expect
`<cam_dir>/<frame><ext>` per camera and extension (extensions from
`output_formats` for ConvertToBinary/DerpCLI, else sniffed from a sample
file), and SimpleMeshRenderer expects `<frame>.<file_type>`.  `list(set(...))`
becomes `List.dedup`. -/
def frame_exts (app output_formats : String) (cam_dirs : List String)
    (sampleExt : Option String) : Option (List String) :=
  if app.startsWith "ConvertToBinary" || app.startsWith "DerpCLI" then
    some ((output_formats.splitOn ",").map (fun ft => "." ++ ft))
  else if cam_dirs.isEmpty then none
  else sampleExt.map (fun e => [e])

def get_frame_fns (app output_formats file_type : String)
    (camDirs : Option (List String)) (sampleExt : Option String)
    (frames : List String) (uncompressed : Bool) : Option (List String) :=
  if uncompressed then
    if app.startsWith "SimpleMeshRenderer" then
      some ((frames.map (fun f => f ++ "." ++ file_type)).dedup)
    else
      camDirs.bind (fun cam_dirs =>
        (frame_exts app output_formats cam_dirs sampleExt).map (fun img_exts =>
          (img_exts.flatMap (fun ext =>
            frames.flatMap (fun f =>
              cam_dirs.map (fun cd => cd ++ "/" ++ (f ++ ext))))).dedup))
  else
    some ((frames.map (fun f => f ++ ".tar")).dedup)

def requestedLevels (p : PParams) : List (Option Nat) :=
  match p.dst_level with
  | .single l => [l]
  | .levels ls => ls.map some

/-- `dst_frames = get_frame_range(frame_chunks[0]["first"], frame_chunks[-1]["last"])`. -/
def full_range (chunks : List FrameChunk) : List String :=
  get_frame_range (chunks.headD chunkDefault).first (chunks.getLastD chunkDefault).last

def expected_fns (env : FsEnv) (p : PParams) (level : Option Nat)
    (chunks : List FrameChunk) : Option (List String) :=
  get_frame_fns p.app p.output_formats p.file_type
    (env.camDirs level) (env.sampleExt level)
    (full_range chunks) (env.dstProtocol level != some "s3")

/-- `Pipeline._get_missing_chunks_level`: `None` models the `except` branch
(either building the expected set or listing the destination raised); the
missing frames are the stems of `expected - actual`. -/
def get_missing_chunks_level (env : FsEnv) (p : PParams) (level : Option Nat)
    (chunks : List FrameChunk) : Option (Finset String) :=
  match expected_fns env p level chunks with
  | none => none
  | some fns =>
    match env.listing level with
    | none => none
    | some actual =>
      some ((fns.toFinset \ actual.toFinset).image frameStem)

/-- The `for dst_level in params["dst_level"]` loop of
`Pipeline._get_missing_chunks` (list case): a failing level aborts with
`None` (Python returns `frame_chunks`), otherwise the per-level missing
frames are accumulated by union. -/
def missing_step (env : FsEnv) (p : PParams) (chunks : List FrameChunk)
    (acc : Option (Finset String)) (l : Nat) : Option (Finset String) :=
  match acc with
  | none => none
  | some s =>
    match get_missing_chunks_level env p (some l) chunks with
    | none => none
    | some m => some (s ∪ m)

def multi_level_missing (env : FsEnv) (p : PParams) (ls : List Nat)
    (chunks : List FrameChunk) : Option (Finset String) :=
  ls.foldl (missing_step env p chunks) (some ∅)

def missing_frames_opt (env : FsEnv) (p : PParams) (chunks : List FrameChunk) :
    Option (Finset String) :=
  match p.dst_level with
  | .levels ls => multi_level_missing env p ls chunks
  | .single l => get_missing_chunks_level env p l chunks

/-- The inner `for frame in get_frame_range(...): if frame in missing_frames:
append; break` loop: a chunk is kept iff some frame of its range is missing. -/
def chunk_has_missing (missing : Finset String) (c : FrameChunk) : Bool :=
  (get_frame_range c.first c.last).any (fun f => decide (f ∈ missing))

def get_missing_chunks (env : FsEnv) (p : PParams) (chunks : List FrameChunk) :
    List FrameChunk :=
  if p.force_recompute then chunks
  else
    match missing_frames_opt env p chunks with
    | none => chunks
    | some missing =>
      if missing = ∅ then []
      else chunks.filter (chunk_has_missing missing)

/-- `Pipeline.run_halted_queue` after the queue purges: compute the missing
chunks, return immediately when none are missing, otherwise publish one
message per missing chunk (`params.update(frame_chunk)`) and enter the wait
loop. -/
structure RunResult where
  published : List FrameChunk
  wait : Option WaitResult
deriving DecidableEq, Repr

def run_halted_queue (env : FsEnv) (p : PParams) (chunks : List FrameChunk)
    (qs0 : Nat) (samples : List Sample) : RunResult :=
  let missing := get_missing_chunks env p chunks
  if missing.length = 0 then { published := [], wait := none }
  else { published := missing, wait := some (wait_loop missing.length qs0 0 none samples) }

/-! #### Cache-checker lemmas -/

theorem foldl_missing_step_none (env : FsEnv) (p : PParams) (chunks : List FrameChunk) :
    ∀ (ls : List Nat), ls.foldl (missing_step env p chunks) none = none := by
  intro ls
  induction ls with
  | nil => rfl
  | cons l ls ih => simpa [missing_step] using ih

theorem foldl_missing_char (env : FsEnv) (p : PParams) (chunks : List FrameChunk)
    (m : Nat → Finset String) :
    ∀ (ls : List Nat) (S : Finset String),
      (∀ l ∈ ls, get_missing_chunks_level env p (some l) chunks = some (m l)) →
      ∃ T, ls.foldl (missing_step env p chunks) (some S) = some T ∧
        ∀ f, f ∈ T ↔ f ∈ S ∨ ∃ l ∈ ls, f ∈ m l := by
  intro ls
  induction ls with
  | nil =>
      intro S _
      exact ⟨S, rfl, by simp⟩
  | cons l ls ih =>
      intro S hm
      have hl : get_missing_chunks_level env p (some l) chunks = some (m l) :=
        hm l (by simp)
      obtain ⟨T, hT, hmem⟩ := ih (S ∪ m l) (fun l' hl' => hm l' (by simp [hl']))
      refine ⟨T, ?_, ?_⟩
      · simpa [missing_step, hl] using hT
      · intro f
        rw [hmem f]
        simp only [Finset.mem_union, List.mem_cons]
        constructor
        · rintro (⟨h | h⟩ | ⟨l', hl', hf⟩)
          · exact Or.inl h
          · exact Or.inr ⟨l, Or.inl rfl, h⟩
          · exact Or.inr ⟨l', Or.inr hl', hf⟩
        · rintro (h | ⟨l', hl' | hl', hf⟩)
          · exact Or.inl (Or.inl h)
          · exact Or.inl (Or.inr (hl' ▸ hf))
          · exact Or.inr ⟨l', hl', hf⟩

/-- C5: for a stage whose `dst_level` is a list, the computed missing-frame
set is exactly the union of the per-level missing-frame sets: a frame counts
as missing iff it is missing at at least one requested level, even when it is
present at all others. -/
theorem C5_multi_level_union (env : FsEnv) (p : PParams) (chunks : List FrameChunk)
    (ls : List Nat) (m : Nat → Finset String)
    (hdl : p.dst_level = DstLevel.levels ls)
    (hm : ∀ l ∈ ls, get_missing_chunks_level env p (some l) chunks = some (m l)) :
    ∃ S, missing_frames_opt env p chunks = some S ∧
      ∀ f, f ∈ S ↔ ∃ l ∈ ls, f ∈ m l := by
  obtain ⟨T, hT, hmem⟩ := foldl_missing_char env p chunks m ls ∅ hm
  refine ⟨T, ?_, ?_⟩
  · rw [missing_frames_opt, hdl]
    exact hT
  · intro f
    rw [hmem f]
    simp

/-- Witness for C5: two levels, a frame missing only at level 1 counts as
missing in the union. -/
theorem C5_witness :
    ∃ S, missing_frames_opt
          { camDirs := fun _ => none, sampleExt := fun _ => none,
            dstProtocol := fun _ => some "s3",
            listing := fun lvl => if lvl = some 0 then some ["000000.tar"] else some [] }
          { app := "Resize: Color", force_recompute := false,
            dst_level := DstLevel.levels [0, 1], output_formats := "", file_type := "" }
          [⟨0, 0⟩] = some S ∧
      ∀ f, f ∈ S ↔ ∃ l ∈ [0, 1],
        f ∈ (if l = 0 then (∅ : Finset String) else {"000000"}) := by
  refine C5_multi_level_union _ _ _ [0, 1]
    (fun l => if l = 0 then ∅ else {"000000"}) rfl ?_
  intro l hl
  fin_cases hl <;> decide

/-- C4: if listing the destination (or building the expected file-name set)
fails with an exception at any requested level, the missing-chunk computation
falls back to reporting the entire requested chunk list as missing. -/
theorem C4_listing_failure_full_range (env : FsEnv) (p : PParams)
    (chunks : List FrameChunk)
    (hfr : p.force_recompute = false)
    (hfail : ∃ lvl ∈ requestedLevels p,
      get_missing_chunks_level env p lvl chunks = none) :
    get_missing_chunks env p chunks = chunks := by
  obtain ⟨lvl, hlvl, hnone⟩ := hfail
  rw [get_missing_chunks, if_neg (by simp [hfr])]
  have hmfo : missing_frames_opt env p chunks = none := by
    rw [missing_frames_opt]
    cases hdl : p.dst_level with
    | single l =>
        rw [requestedLevels, hdl] at hlvl
        simp at hlvl
        subst hlvl
        exact hnone
    | levels ls =>
        rw [requestedLevels, hdl] at hlvl
        simp only [List.mem_map] at hlvl
        obtain ⟨l, hl, rfl⟩ := hlvl
        obtain ⟨pre, post, rfl⟩ := List.append_of_mem hl
        show (pre ++ l :: post).foldl (missing_step env p chunks) (some ∅) = none
        rw [List.foldl_append]
        cases hacc : pre.foldl (missing_step env p chunks) (some ∅) with
        | none =>
            rw [List.foldl_cons]
            have : missing_step env p chunks none l = none := rfl
            rw [this]
            exact foldl_missing_step_none env p chunks post
        | some S =>
            rw [List.foldl_cons]
            have : missing_step env p chunks (some S) l = none := by
              simp [missing_step, hnone]
            rw [this]
            exact foldl_missing_step_none env p chunks post
  rw [hmfo]

/-- Witness for C4: a single-level stage whose destination listing raises. -/
theorem C4_witness :
    ({ app := "Transfer", force_recompute := false,
       dst_level := DstLevel.single none, output_formats := "",
       file_type := "" : PParams }).force_recompute = false ∧
    get_missing_chunks
      { camDirs := fun _ => none, sampleExt := fun _ => none,
        dstProtocol := fun _ => some "s3", listing := fun _ => none }
      { app := "Transfer", force_recompute := false,
        dst_level := DstLevel.single none, output_formats := "", file_type := "" }
      [⟨0, 1⟩, ⟨2, 3⟩] = [⟨0, 1⟩, ⟨2, 3⟩] :=
  ⟨rfl, C4_listing_failure_full_range _ _ _ rfl ⟨none, by decide, by decide⟩⟩

/-- C6: when the cache check runs (no force_recompute) and produces a
missing-frame set, a chunk appears in the returned missing-chunk list iff at
least one frame name in its inclusive `[first, last]` range is in that set;
and the returned list only contains chunks of the request — dispatch is at
whole-chunk granularity. -/
theorem C6_chunk_granularity (env : FsEnv) (p : PParams) (chunks : List FrameChunk)
    (M : Finset String)
    (hfr : p.force_recompute = false)
    (hM : missing_frames_opt env p chunks = some M) :
    (∀ c ∈ chunks,
      (c ∈ get_missing_chunks env p chunks ↔
        ∃ f ∈ get_frame_range c.first c.last, f ∈ M)) ∧
    (∀ c ∈ get_missing_chunks env p chunks, c ∈ chunks) := by
  rw [get_missing_chunks, if_neg (by simp [hfr]), hM]
  dsimp only
  by_cases hemp : M = ∅
  · rw [if_pos hemp]
    subst hemp
    constructor
    · intro c _
      simp
    · intro c hc
      simp at hc
  · rw [if_neg hemp]
    constructor
    · intro c hc
      rw [List.mem_filter]
      simp only [hc, true_and, chunk_has_missing, List.any_eq_true, decide_eq_true_eq]
    · intro c hc
      exact (List.mem_filter.mp hc).1

/-- Witness for C6: with missing frame `000002`, only the chunk containing
frame 2 is dispatched. -/
theorem C6_witness :
    ({ app := "Transfer", force_recompute := false,
       dst_level := DstLevel.single none, output_formats := "",
       file_type := "" : PParams }).force_recompute = false ∧
    ((∀ c ∈ [(⟨0, 1⟩ : FrameChunk), ⟨2, 3⟩],
      (c ∈ get_missing_chunks
        { camDirs := fun _ => none, sampleExt := fun _ => none,
          dstProtocol := fun _ => some "s3",
          listing := fun _ => some ["000000.tar", "000001.tar", "000003.tar"] }
        { app := "Transfer", force_recompute := false,
          dst_level := DstLevel.single none, output_formats := "", file_type := "" }
        [⟨0, 1⟩, ⟨2, 3⟩] ↔
        ∃ f ∈ get_frame_range c.first c.last, f ∈ ({"000002"} : Finset String))) ∧
    (∀ c ∈ get_missing_chunks
        { camDirs := fun _ => none, sampleExt := fun _ => none,
          dstProtocol := fun _ => some "s3",
          listing := fun _ => some ["000000.tar", "000001.tar", "000003.tar"] }
        { app := "Transfer", force_recompute := false,
          dst_level := DstLevel.single none, output_formats := "", file_type := "" }
        [⟨0, 1⟩, ⟨2, 3⟩], c ∈ [(⟨0, 1⟩ : FrameChunk), ⟨2, 3⟩])) :=
  ⟨rfl, C6_chunk_granularity _ _ _ {"000002"} rfl (by decide)⟩

theorem get_missing_chunks_level_empty (env : FsEnv) (p : PParams)
    (chunks : List FrameChunk) (lvl : Option Nat) (F A : List String)
    (hF : expected_fns env p lvl chunks = some F)
    (hA : env.listing lvl = some A)
    (hsub : ∀ x ∈ F, x ∈ A) :
    get_missing_chunks_level env p lvl chunks = some ∅ := by
  rw [get_missing_chunks_level, hF, hA]
  dsimp only
  have : F.toFinset \ A.toFinset = ∅ := by
    rw [Finset.sdiff_eq_empty_iff_subset]
    intro x hx
    rw [List.mem_toFinset] at hx
    rw [List.mem_toFinset]
    exact hsub x hx
  rw [this]
  simp

/-- C3: for a stage run without `force_recompute` whose destination listing
already contains every expected output file name (at every requested level)
for the full requested range, the missing-chunk computation returns `[]` and
`run_halted_queue` returns immediately: zero messages published, wait loop
never entered. -/
theorem C3_idempotent_rerun (env : FsEnv) (p : PParams) (chunks : List FrameChunk)
    (qs0 : Nat) (samples : List Sample) (F A : Option Nat → List String)
    (hfr : p.force_recompute = false)
    (hlv : ∀ lvl ∈ requestedLevels p,
      expected_fns env p lvl chunks = some (F lvl) ∧
      env.listing lvl = some (A lvl) ∧
      ∀ x ∈ F lvl, x ∈ A lvl) :
    get_missing_chunks env p chunks = [] ∧
    run_halted_queue env p chunks qs0 samples = { published := [], wait := none } := by
  have hlevel : ∀ lvl ∈ requestedLevels p,
      get_missing_chunks_level env p lvl chunks = some ∅ := by
    intro lvl hlvl
    obtain ⟨h1, h2, h3⟩ := hlv lvl hlvl
    exact get_missing_chunks_level_empty env p chunks lvl (F lvl) (A lvl) h1 h2 h3
  have hmfo : missing_frames_opt env p chunks = some ∅ := by
    rw [missing_frames_opt]
    cases hdl : p.dst_level with
    | single l =>
        dsimp only
        refine hlevel l ?_
        rw [requestedLevels, hdl]
        simp
    | levels ls =>
        dsimp only
        have hm : ∀ l ∈ ls, get_missing_chunks_level env p (some l) chunks = some ∅ := by
          intro l hl
          refine hlevel (some l) ?_
          rw [requestedLevels, hdl]
          simp [hl]
        obtain ⟨T, hT, hmem⟩ := foldl_missing_char env p chunks (fun _ => ∅) ls ∅ hm
        have : T = ∅ := by
          ext f
          rw [hmem f]
          simp
        show multi_level_missing env p ls chunks = some ∅
        rw [show multi_level_missing env p ls chunks
            = ls.foldl (missing_step env p chunks) (some ∅) from rfl, hT, this]
  have hmc : get_missing_chunks env p chunks = [] := by
    rw [get_missing_chunks, if_neg (by simp [hfr]), hmfo]
    simp
  refine ⟨hmc, ?_⟩
  rw [run_halted_queue]
  simp [hmc]

/-- Witness for C3: a two-chunk s3 destination already holding both expected
archives. -/
theorem C3_witness :
    ({ app := "Transfer", force_recompute := false,
       dst_level := DstLevel.single none, output_formats := "",
       file_type := "" : PParams }).force_recompute = false ∧
    (get_missing_chunks
        { camDirs := fun _ => none, sampleExt := fun _ => none,
          dstProtocol := fun _ => some "s3",
          listing := fun _ => some ["000000.tar", "000001.tar"] }
        { app := "Transfer", force_recompute := false,
          dst_level := DstLevel.single none, output_formats := "", file_type := "" }
        [⟨0, 0⟩, ⟨1, 1⟩] = [] ∧
      run_halted_queue
        { camDirs := fun _ => none, sampleExt := fun _ => none,
          dstProtocol := fun _ => some "s3",
          listing := fun _ => some ["000000.tar", "000001.tar"] }
        { app := "Transfer", force_recompute := false,
          dst_level := DstLevel.single none, output_formats := "", file_type := "" }
        [⟨0, 0⟩, ⟨1, 1⟩] 0 [] = { published := [], wait := none }) :=
  ⟨rfl, C3_idempotent_rerun _ _ _ 0 []
    (fun _ => ["000000.tar", "000001.tar"]) (fun _ => ["000000.tar", "000001.tar"])
    rfl (by decide)⟩

/-! #### String lemmas for file-name ↔ frame-name correspondence (C8) -/

theorem takeWhile_all {α} (p : α → Bool) (l : List α) (h : ∀ a ∈ l, p a = true) :
    l.takeWhile p = l := by
  have := takeWhile_append_all p l [] h
  simpa using this

theorem takeWhile_append_stop {α} (p : α → Bool) (xs : List α) (y : α) (zs : List α)
    (hy : ¬ p y = true) :
    (xs ++ y :: zs).takeWhile p = xs.takeWhile p := by
  induction xs with
  | nil =>
      simp only [List.nil_append, List.takeWhile_nil]
      exact List.takeWhile_cons_of_neg hy
  | cons x xs ih =>
      by_cases hx : p x = true
      · simp only [List.cons_append, List.takeWhile_cons_of_pos hx, ih]
      · simp only [List.cons_append, List.takeWhile_cons_of_neg hx]

theorem bne_true_of_ne {c d : Char} (h : c ≠ d) : (c != d) = true := by
  simpa using h

theorem basename_of_no_slash (s : String) (h : ∀ c ∈ s.data, c ≠ '/') :
    basename s = s := by
  rw [basename]
  rw [takeWhile_all _ _ (by
    intro a ha
    rw [List.mem_reverse] at ha
    exact bne_true_of_ne (h a ha))]
  rw [List.reverse_reverse]

theorem basename_append_slash (cd rest : String) :
    basename (cd ++ "/" ++ rest) = basename rest := by
  rw [basename, basename]
  have hdata : (cd ++ "/" ++ rest).data = cd.data ++ '/' :: rest.data := by
    show (cd.data ++ "/".data) ++ rest.data = cd.data ++ '/' :: rest.data
    simp
  rw [hdata, List.reverse_append, List.reverse_cons, List.append_assoc]
  rw [show (['/'] : List Char) ++ cd.data.reverse = '/' :: cd.data.reverse from rfl]
  rw [takeWhile_append_stop _ _ '/' _ (by simp)]

theorem splitextStem_of_no_dot (s : String) (h : ∀ c ∈ s.data, c ≠ '.') :
    splitextStem s = s := by
  have htake : extRevLen s = s.data.length := by
    rw [extRevLen]
    rw [takeWhile_all _ _ (by
      intro a ha
      rw [List.mem_reverse] at ha
      exact bne_true_of_ne (h a ha))]
    exact List.length_reverse _
  rw [splitextStem, if_pos htake]

theorem splitextStem_stem_ext (f : String) (t : List Char)
    (hfne : f.data ≠ []) (hfnd : ∀ c ∈ f.data, c ≠ '.')
    (htnd : ∀ c ∈ t, c ≠ '.') :
    splitextStem ⟨f.data ++ '.' :: t⟩ = f := by
  have hrev : (String.mk (f.data ++ '.' :: t)).data.reverse
      = t.reverse ++ '.' :: f.data.reverse := by
    show (f.data ++ '.' :: t).reverse = t.reverse ++ '.' :: f.data.reverse
    rw [List.reverse_append, List.reverse_cons, List.append_assoc]
    simp
  have hext : extRevLen ⟨f.data ++ '.' :: t⟩ = t.length := by
    rw [extRevLen, hrev]
    rw [takeWhile_append_stop _ _ '.' _ (by simp)]
    rw [takeWhile_all _ _ (by
      intro a ha
      rw [List.mem_reverse] at ha
      exact bne_true_of_ne (htnd a ha))]
    exact List.length_reverse _
  have hlen : extRevLen ⟨f.data ++ '.' :: t⟩ ≠ (String.mk (f.data ++ '.' :: t)).data.length := by
    rw [hext]
    show t.length ≠ (f.data ++ '.' :: t).length
    simp only [List.length_append, List.length_cons]
    have : f.data.length ≠ 0 := fun hh => hfne (List.length_eq_zero.mp hh)
    omega
  rw [splitextStem, if_neg hlen]
  have hdrop : (String.mk (f.data ++ '.' :: t)).data.reverse.drop
      (extRevLen ⟨f.data ++ '.' :: t⟩ + 1) = f.data.reverse := by
    rw [hrev, hext]
    rw [show t.length + 1 = t.reverse.length + 1 by rw [List.length_reverse]]
    rw [show t.reverse.length + 1 = (t.reverse ++ ['.']).length by simp]
    rw [show t.reverse ++ '.' :: f.data.reverse = (t.reverse ++ ['.']) ++ f.data.reverse by simp]
    rw [List.drop_left]
  rw [hdrop, List.reverse_reverse]
  have hany : f.data.any (fun c => c != '.') = true := by
    rw [List.any_eq_true]
    cases hf : f.data with
    | nil => exact absurd hf hfne
    | cons c cs => exact ⟨c, by simp, bne_true_of_ne (hfnd c (by simp [hf]))⟩
  rw [if_pos hany]

/-! #### Well-formedness of the name ingredients (C8)

Camera directory names carry no `/`, extensions are a leading dot followed by
dot-free characters (that is what `os.path.splitext` produces and what the
`--output_formats`/`file_type` flags contain), and frame names are nonempty
digit strings.  Under these conditions each expected file name maps back to
its frame via `splitext(basename(fn))[0]`. -/

def noDotSlash (s : String) : Bool :=
  s.data.all (fun c => !(c == '.') && !(c == '/'))

def noSlashB (s : String) : Bool := s.data.all (fun c => !(c == '/'))

def wfExt (e : String) : Bool :=
  noSlashB e &&
  (match e.data with
   | [] => true
   | c :: t => c == '.' && t.all (fun x => !(x == '.')))

def wfFns (output_formats file_type : String)
    (cds : Option (List String)) (se : Option String) : Bool :=
  noDotSlash file_type &&
  (output_formats.splitOn ",").all noDotSlash &&
  (match cds with | none => true | some l => l.all noSlashB) &&
  (match se with | none => true | some e => wfExt e)

theorem noDotSlash_spec {s : String} (h : noDotSlash s = true) :
    ∀ c ∈ s.data, c ≠ '.' ∧ c ≠ '/' := by
  intro c hc
  simp only [noDotSlash, List.all_eq_true] at h
  have := h c hc
  simp only [Bool.and_eq_true, Bool.not_eq_true'] at this
  exact ⟨by simpa using this.1, by simpa using this.2⟩

theorem noSlashB_spec {s : String} (h : noSlashB s = true) :
    ∀ c ∈ s.data, c ≠ '/' := by
  intro c hc
  simp only [noSlashB, List.all_eq_true] at h
  have := h c hc
  simpa using this

theorem wfExt_spec {e : String} (h : wfExt e = true) :
    (∀ c ∈ e.data, c ≠ '/') ∧
    (e.data = [] ∨ ∃ t, e.data = '.' :: t ∧ ∀ c ∈ t, c ≠ '.') := by
  simp only [wfExt, Bool.and_eq_true] at h
  refine ⟨noSlashB_spec h.1, ?_⟩
  rcases hd : e.data with _ | ⟨c, t⟩
  · exact Or.inl rfl
  · right
    have h2 := h.2
    rw [hd] at h2
    simp only [Bool.and_eq_true, beq_iff_eq, List.all_eq_true] at h2
    refine ⟨t, by rw [h2.1] at hd ⊢, ?_⟩
    intro x hx
    have := h2.2 x hx
    simpa using this

theorem frame_range_wf (a b : Nat) :
    ∀ g ∈ get_frame_range a b, g.data ≠ [] ∧ ∀ c ∈ g.data, c ≠ '.' ∧ c ≠ '/' := by
  intro g hg
  rw [get_frame_range] at hg
  obtain ⟨m, _, rfl⟩ := List.mem_map.mp hg
  refine ⟨get_frame_name_ne_nil m, ?_⟩
  intro c hc
  have hd := get_frame_name_chars_digit m c hc
  exact ⟨isDigit_ne_dot hd, isDigit_ne_slash hd⟩

theorem frameStem_tar (fr : String)
    (hfr : fr.data ≠ [] ∧ ∀ c ∈ fr.data, c ≠ '.' ∧ c ≠ '/') :
    frameStem (fr ++ ".tar") = fr := by
  have hdata : (fr ++ ".tar").data = fr.data ++ '.' :: ['t', 'a', 'r'] := rfl
  rw [frameStem]
  rw [basename_of_no_slash _ (by
    rw [hdata]
    intro c hc
    rcases List.mem_append.mp hc with h | h
    · exact (hfr.2 c h).2
    · simp only [List.mem_cons, List.not_mem_nil, or_false] at h
      rcases h with rfl | rfl | rfl | rfl <;> decide)]
  have : fr ++ ".tar" = ⟨fr.data ++ '.' :: ['t', 'a', 'r']⟩ := by
    apply String.ext
    rw [hdata]
  rw [this, splitextStem_stem_ext fr ['t', 'a', 'r'] hfr.1 (fun c hc => (hfr.2 c hc).1)
    (by decide)]

theorem frameStem_dot_ext (fr ext : String)
    (hfr : fr.data ≠ [] ∧ ∀ c ∈ fr.data, c ≠ '.' ∧ c ≠ '/')
    (hext : (∀ c ∈ ext.data, c ≠ '/') ∧
      (ext.data = [] ∨ ∃ t, ext.data = '.' :: t ∧ ∀ c ∈ t, c ≠ '.')) :
    frameStem (fr ++ ext) = fr := by
  rw [frameStem]
  rw [basename_of_no_slash _ (by
    intro c hc
    rw [show (fr ++ ext).data = fr.data ++ ext.data from rfl] at hc
    rcases List.mem_append.mp hc with h | h
    · exact (hfr.2 c h).2
    · exact hext.1 c h)]
  rcases hext.2 with hnil | ⟨t, ht, htnd⟩
  · have : fr ++ ext = fr := by
      apply String.ext
      rw [show (fr ++ ext).data = fr.data ++ ext.data from rfl, hnil, List.append_nil]
    rw [this]
    exact splitextStem_of_no_dot fr (fun c hc => (hfr.2 c hc).1)
  · have : fr ++ ext = ⟨fr.data ++ '.' :: t⟩ := by
      apply String.ext
      rw [show (fr ++ ext).data = fr.data ++ ext.data from rfl, ht]
    rw [this]
    exact splitextStem_stem_ext fr t hfr.1 (fun c hc => (hfr.2 c hc).1) htnd

theorem gff_compressed (app of ft : String) (cds : Option (List String))
    (se : Option String) (R : List String) :
    get_frame_fns app of ft cds se R false
      = some ((R.map (fun f => f ++ ".tar")).dedup) := rfl

theorem gff_smr (app of ft : String) (cds : Option (List String))
    (se : Option String) (R : List String)
    (h : app.startsWith "SimpleMeshRenderer" = true) :
    get_frame_fns app of ft cds se R true
      = some ((R.map (fun f => f ++ "." ++ ft)).dedup) := by
  rw [get_frame_fns, if_pos rfl, if_pos h]

theorem gff_cams (app of ft : String) (cam_dirs exts : List String)
    (se : Option String) (R : List String)
    (hsmr : ¬ app.startsWith "SimpleMeshRenderer" = true)
    (hexts : frame_exts app of cam_dirs se = some exts) :
    get_frame_fns app of ft (some cam_dirs) se R true
      = some ((exts.flatMap (fun ext =>
          R.flatMap (fun f =>
            cam_dirs.map (fun cd => cd ++ "/" ++ (f ++ ext))))).dedup) := by
  rw [get_frame_fns, if_pos rfl, if_neg hsmr]
  rw [Option.some_bind, hexts]
  rfl

theorem gff_none (app of ft : String) (se : Option String) (R : List String)
    (hsmr : ¬ app.startsWith "SimpleMeshRenderer" = true) :
    get_frame_fns app of ft none se R true = none := by
  rw [get_frame_fns, if_pos rfl, if_neg hsmr]
  rfl

theorem gff_exts_none (app of ft : String) (cam_dirs : List String)
    (se : Option String) (R : List String)
    (hsmr : ¬ app.startsWith "SimpleMeshRenderer" = true)
    (hexts : frame_exts app of cam_dirs se = none) :
    get_frame_fns app of ft (some cam_dirs) se R true = none := by
  rw [get_frame_fns, if_pos rfl, if_neg hsmr, Option.some_bind, hexts]
  rfl

theorem frame_exts_wf (app of : String) (cam_dirs : List String) (se : Option String)
    (exts : List String)
    (hwf_of : (of.splitOn ",").all noDotSlash = true)
    (hwf_se : (match se with | none => true | some e => wfExt e) = true)
    (h : frame_exts app of cam_dirs se = some exts) :
    ∀ ext ∈ exts, (∀ c ∈ ext.data, c ≠ '/') ∧
      (ext.data = [] ∨ ∃ t, ext.data = '.' :: t ∧ ∀ c ∈ t, c ≠ '.') := by
  rw [frame_exts] at h
  by_cases hctb : (app.startsWith "ConvertToBinary" || app.startsWith "DerpCLI") = true
  · rw [if_pos hctb] at h
    obtain rfl := Option.some.inj h
    intro ext hext
    rw [List.mem_map] at hext
    obtain ⟨ftm, hftm, rfl⟩ := hext
    have hnds : noDotSlash ftm = true := by
      rw [List.all_eq_true] at hwf_of
      exact hwf_of ftm hftm
    refine ⟨?_, Or.inr ⟨ftm.data, rfl, fun c hc => (noDotSlash_spec hnds c hc).1⟩⟩
    intro c hc
    rw [show ("." ++ ftm).data = '.' :: ftm.data from rfl] at hc
    rcases List.mem_cons.mp hc with rfl | hmem
    · decide
    · exact (noDotSlash_spec hnds c hmem).2
  · rw [if_neg hctb] at h
    by_cases hemp : cam_dirs.isEmpty = true
    · rw [if_pos hemp] at h
      simp at h
    · rw [if_neg hemp] at h
      cases hse : se with
      | none =>
          rw [hse] at h
          simp at h
      | some e =>
          rw [hse] at h
          simp only [Option.map_some'] at h
          obtain rfl := Option.some.inj h
          intro ext hext
          obtain rfl : ext = e := by simpa using hext
          have hwe : wfExt ext = true := by
            rw [hse] at hwf_se
            exact hwf_se
          exact wfExt_spec hwe

/-- Every expected file name produced by `get_frame_fns` stems back to the
frame it was generated from, and belongs to the expected names of any frame
list containing that frame (the construction is per-frame). -/
theorem get_frame_fns_decompose
    (app of ft : String) (cds : Option (List String)) (se : Option String)
    (u : Bool) (R L : List String)
    (hwf : wfFns of ft cds se = true)
    (hR : ∀ fr ∈ R, fr.data ≠ [] ∧ ∀ c ∈ fr.data, c ≠ '.' ∧ c ≠ '/')
    (h : get_frame_fns app of ft cds se R u = some L) :
    ∀ x ∈ L, ∃ fr ∈ R, frameStem x = fr ∧
      ∀ (R' L' : List String), get_frame_fns app of ft cds se R' u = some L' →
        fr ∈ R' → x ∈ L' := by
  simp only [wfFns, Bool.and_eq_true] at hwf
  obtain ⟨⟨⟨hwf_ft, hwf_of⟩, hwf_cds⟩, hwf_se⟩ := hwf
  intro x hx
  cases u with
  | false =>
      rw [gff_compressed] at h
      obtain rfl := Option.some.inj h
      rw [List.mem_dedup, List.mem_map] at hx
      obtain ⟨fr, hfrR, rfl⟩ := hx
      refine ⟨fr, hfrR, frameStem_tar fr (hR fr hfrR), ?_⟩
      intro R' L' h' hfr'
      rw [gff_compressed] at h'
      obtain rfl := Option.some.inj h'
      rw [List.mem_dedup, List.mem_map]
      exact ⟨fr, hfr', rfl⟩
  | true =>
      by_cases hsmr : app.startsWith "SimpleMeshRenderer" = true
      · rw [gff_smr _ _ _ _ _ _ hsmr] at h
        obtain rfl := Option.some.inj h
        rw [List.mem_dedup, List.mem_map] at hx
        obtain ⟨fr, hfrR, rfl⟩ := hx
        have hstem : frameStem (fr ++ "." ++ ft) = fr := by
          have heq : fr ++ "." ++ ft = fr ++ ("." ++ ft) := by
            apply String.ext
            show (fr.data ++ ".".data) ++ ft.data = fr.data ++ ('.' :: ft.data)
            simp
          rw [heq]
          refine frameStem_dot_ext fr ("." ++ ft) (hR fr hfrR) ⟨?_, ?_⟩
          · intro c hc
            rw [show ("." ++ ft).data = '.' :: ft.data from rfl] at hc
            rcases List.mem_cons.mp hc with rfl | hmem
            · decide
            · exact (noDotSlash_spec hwf_ft c hmem).2
          · exact Or.inr ⟨ft.data, rfl, fun c hc => (noDotSlash_spec hwf_ft c hc).1⟩
        refine ⟨fr, hfrR, hstem, ?_⟩
        intro R' L' h' hfr'
        rw [gff_smr _ _ _ _ _ _ hsmr] at h'
        obtain rfl := Option.some.inj h'
        rw [List.mem_dedup, List.mem_map]
        exact ⟨fr, hfr', rfl⟩
      · cases hcds : cds with
        | none =>
            rw [hcds, gff_none _ _ _ _ _ hsmr] at h
            simp at h
        | some cam_dirs =>
            rw [hcds] at h hwf_cds
            cases hfx : frame_exts app of cam_dirs se with
            | none =>
                rw [gff_exts_none _ _ _ _ _ _ hsmr hfx] at h
                simp at h
            | some exts =>
                have hexts_wf := frame_exts_wf app of cam_dirs se exts hwf_of hwf_se hfx
                rw [gff_cams _ _ _ _ _ _ _ hsmr hfx] at h
                obtain rfl := Option.some.inj h
                rw [List.mem_dedup, List.mem_flatMap] at hx
                obtain ⟨ext, hext, hx2⟩ := hx
                rw [List.mem_flatMap] at hx2
                obtain ⟨fr, hfrR, hx3⟩ := hx2
                rw [List.mem_map] at hx3
                obtain ⟨cd, hcd, rfl⟩ := hx3
                have hstem : frameStem (cd ++ "/" ++ (fr ++ ext)) = fr := by
                  rw [frameStem, basename_append_slash]
                  have hbase := frameStem_dot_ext fr ext (hR fr hfrR) (hexts_wf ext hext)
                  rw [frameStem] at hbase
                  rw [basename_of_no_slash _ (by
                    intro c hc
                    rw [show (fr ++ ext).data = fr.data ++ ext.data from rfl] at hc
                    rcases List.mem_append.mp hc with hmem | hmem
                    · exact ((hR fr hfrR).2 c hmem).2
                    · exact (hexts_wf ext hext).1 c hmem)] at hbase ⊢
                  exact hbase
                refine ⟨fr, hfrR, hstem, ?_⟩
                intro R' L' h' hfr'
                rw [gff_cams _ _ _ _ _ _ _ hsmr hfx] at h'
                obtain rfl := Option.some.inj h'
                rw [List.mem_dedup, List.mem_flatMap]
                refine ⟨ext, hext, ?_⟩
                rw [List.mem_flatMap]
                refine ⟨fr, hfr', ?_⟩
                rw [List.mem_map]
                exact ⟨cd, hcd, rfl⟩

theorem missing_frames_opt_char (env : FsEnv) (p : PParams) (chunks : List FrameChunk)
    (m : Option Nat → Finset String)
    (hm : ∀ lvl ∈ requestedLevels p,
      get_missing_chunks_level env p lvl chunks = some (m lvl)) :
    ∃ S, missing_frames_opt env p chunks = some S ∧
      ∀ g, g ∈ S ↔ ∃ lvl ∈ requestedLevels p, g ∈ m lvl := by
  rw [missing_frames_opt]
  cases hdl : p.dst_level with
  | single l =>
      dsimp only
      refine ⟨m l, hm l (by rw [requestedLevels, hdl]; simp), ?_⟩
      intro g
      rw [requestedLevels, hdl]
      simp
  | levels ls =>
      dsimp only
      have hm' : ∀ l ∈ ls,
          get_missing_chunks_level env p (some l) chunks = some (m (some l)) :=
        fun l hl => hm (some l) (by rw [requestedLevels, hdl]; simp [hl])
      obtain ⟨T, hT, hmem⟩ := foldl_missing_char env p chunks (fun l => m (some l)) ls ∅ hm'
      refine ⟨T, hT, ?_⟩
      intro g
      rw [hmem g, requestedLevels, hdl]
      constructor
      · rintro (hg | ⟨l, hl, hg⟩)
        · exact absurd hg (by simp)
        · exact ⟨some l, by simp [hl], hg⟩
      · rintro ⟨lvl, hlvl, hg⟩
        rw [List.mem_map] at hlvl
        obtain ⟨l, hl, rfl⟩ := hlvl
        exact Or.inr ⟨l, hl, hg⟩

theorem missing_set_update
    (app of ft : String) (cds : Option (List String)) (se : Option String) (u : Bool)
    (R Rc E Fc A : List String)
    (hwf : wfFns of ft cds se = true)
    (hRwf : ∀ fr ∈ R, fr.data ≠ [] ∧ ∀ c ∈ fr.data, c ≠ '.' ∧ c ≠ '/')
    (hRcwf : ∀ fr ∈ Rc, fr.data ≠ [] ∧ ∀ c ∈ fr.data, c ≠ '.' ∧ c ≠ '/')
    (hE : get_frame_fns app of ft cds se R u = some E)
    (hFc : get_frame_fns app of ft cds se Rc u = some Fc)
    (g : String) :
    (g ∈ Rc → g ∉ (E.toFinset \ (A ++ Fc).toFinset).image frameStem) ∧
    (g ∉ Rc →
      (g ∈ (E.toFinset \ (A ++ Fc).toFinset).image frameStem ↔
       g ∈ (E.toFinset \ A.toFinset).image frameStem)) := by
  constructor
  · intro hgRc hgMn
    rw [Finset.mem_image] at hgMn
    obtain ⟨x, hx, hxg⟩ := hgMn
    rw [Finset.mem_sdiff, List.mem_toFinset, List.mem_toFinset] at hx
    obtain ⟨hxE, hxnA⟩ := hx
    obtain ⟨fr, hfrR, hstem, htrans⟩ :=
      get_frame_fns_decompose app of ft cds se u R E hwf hRwf hE x hxE
    have hfrg : fr = g := by rw [← hxg, hstem]
    subst hfrg
    have hxFc : x ∈ Fc := htrans Rc Fc hFc hgRc
    exact hxnA (List.mem_append.mpr (Or.inr hxFc))
  · intro hgnRc
    constructor
    · intro hgMn
      rw [Finset.mem_image] at hgMn ⊢
      obtain ⟨x, hx, hxg⟩ := hgMn
      rw [Finset.mem_sdiff, List.mem_toFinset, List.mem_toFinset] at hx
      refine ⟨x, ?_, hxg⟩
      rw [Finset.mem_sdiff, List.mem_toFinset, List.mem_toFinset]
      exact ⟨hx.1, fun hA => hx.2 (List.mem_append.mpr (Or.inl hA))⟩
    · intro hgMo
      rw [Finset.mem_image] at hgMo ⊢
      obtain ⟨x, hx, hxg⟩ := hgMo
      rw [Finset.mem_sdiff, List.mem_toFinset, List.mem_toFinset] at hx
      refine ⟨x, ?_, hxg⟩
      rw [Finset.mem_sdiff, List.mem_toFinset, List.mem_toFinset]
      refine ⟨hx.1, ?_⟩
      intro hmem
      rcases List.mem_append.mp hmem with hA | hFcmem
      · exact hx.2 hA
      · obtain ⟨fr, hfrRc, hstem, _⟩ :=
          get_frame_fns_decompose app of ft cds se u Rc Fc hwf hRcwf hFc x hFcmem
        have : fr = g := by rw [← hxg, hstem]
        subst this
        exact hgnRc hfrRc

/-- C8: for pairwise-disjoint chunks, augmenting the destination listing with
exactly the expected output file names of one previously-missing chunk `c0`
(and changing nothing else) makes the next missing-chunk computation return
the previous missing-chunk list minus exactly `c0`: no other chunk's
missing/present status changes. -/
theorem C8_monotonicity
    (env env' : FsEnv) (p : PParams) (chunks : List FrameChunk) (c0 : FrameChunk)
    (E Fc A : Option Nat → List String)
    (hfr : p.force_recompute = false)
    (hdisj : ∀ c ∈ chunks, ∀ d ∈ chunks, c ≠ d →
      ∀ f ∈ get_frame_range c.first c.last, f ∉ get_frame_range d.first d.last)
    (hwf : ∀ lvl ∈ requestedLevels p,
      wfFns p.output_formats p.file_type (env.camDirs lvl) (env.sampleExt lvl) = true)
    (hsame : ∀ lvl ∈ requestedLevels p,
      env'.camDirs lvl = env.camDirs lvl ∧ env'.sampleExt lvl = env.sampleExt lvl ∧
      env'.dstProtocol lvl = env.dstProtocol lvl)
    (hE : ∀ lvl ∈ requestedLevels p, expected_fns env p lvl chunks = some (E lvl))
    (hFc : ∀ lvl ∈ requestedLevels p,
      get_frame_fns p.app p.output_formats p.file_type (env.camDirs lvl)
        (env.sampleExt lvl) (get_frame_range c0.first c0.last)
        (env.dstProtocol lvl != some "s3") = some (Fc lvl))
    (hA : ∀ lvl ∈ requestedLevels p, env.listing lvl = some (A lvl))
    (hA' : ∀ lvl ∈ requestedLevels p, env'.listing lvl = some (A lvl ++ Fc lvl))
    (hc0miss : c0 ∈ get_missing_chunks env p chunks) :
    get_missing_chunks env' p chunks
      = (get_missing_chunks env p chunks).filter (fun c => decide (c ≠ c0)) := by
  have hlevel_old : ∀ lvl ∈ requestedLevels p,
      get_missing_chunks_level env p lvl chunks
        = some (((E lvl).toFinset \ (A lvl).toFinset).image frameStem) := by
    intro lvl hlvl
    rw [get_missing_chunks_level, hE lvl hlvl, hA lvl hlvl]
  have hexp' : ∀ lvl ∈ requestedLevels p,
      expected_fns env' p lvl chunks = some (E lvl) := by
    intro lvl hlvl
    obtain ⟨h1, h2, h3⟩ := hsame lvl hlvl
    rw [expected_fns, h1, h2, h3]
    exact hE lvl hlvl
  have hlevel_new : ∀ lvl ∈ requestedLevels p,
      get_missing_chunks_level env' p lvl chunks
        = some (((E lvl).toFinset \ (A lvl ++ Fc lvl).toFinset).image frameStem) := by
    intro lvl hlvl
    rw [get_missing_chunks_level, hexp' lvl hlvl, hA' lvl hlvl]
  obtain ⟨SO, hSO, hSOmem⟩ := missing_frames_opt_char env p chunks _ hlevel_old
  obtain ⟨SN, hSN, hSNmem⟩ := missing_frames_opt_char env' p chunks _ hlevel_new
  have hRwf := frame_range_wf (chunks.headD chunkDefault).first
    (chunks.getLastD chunkDefault).last
  have hRcwf := frame_range_wf c0.first c0.last
  have hkey : ∀ g : String,
      (g ∈ get_frame_range c0.first c0.last → g ∉ SN) ∧
      (g ∉ get_frame_range c0.first c0.last → (g ∈ SN ↔ g ∈ SO)) := by
    intro g
    have hupd : ∀ lvl ∈ requestedLevels p,
        (g ∈ get_frame_range c0.first c0.last →
          g ∉ ((E lvl).toFinset \ (A lvl ++ Fc lvl).toFinset).image frameStem) ∧
        (g ∉ get_frame_range c0.first c0.last →
          ((g ∈ ((E lvl).toFinset \ (A lvl ++ Fc lvl).toFinset).image frameStem) ↔
           g ∈ ((E lvl).toFinset \ (A lvl).toFinset).image frameStem)) := by
      intro lvl hlvl
      exact missing_set_update p.app p.output_formats p.file_type
        (env.camDirs lvl) (env.sampleExt lvl) (env.dstProtocol lvl != some "s3")
        (full_range chunks) (get_frame_range c0.first c0.last)
        (E lvl) (Fc lvl) (A lvl)
        (hwf lvl hlvl) hRwf hRcwf (hE lvl hlvl) (hFc lvl hlvl) g
    constructor
    · intro hin hgSN
      rw [hSNmem g] at hgSN
      obtain ⟨lvl, hlvl, hg⟩ := hgSN
      exact (hupd lvl hlvl).1 hin hg
    · intro hout
      rw [hSNmem g, hSOmem g]
      constructor
      · rintro ⟨lvl, hlvl, hg⟩
        exact ⟨lvl, hlvl, ((hupd lvl hlvl).2 hout).mp hg⟩
      · rintro ⟨lvl, hlvl, hg⟩
        exact ⟨lvl, hlvl, ((hupd lvl hlvl).2 hout).mpr hg⟩
  have hold : get_missing_chunks env p chunks =
      if SO = ∅ then [] else chunks.filter (chunk_has_missing SO) := by
    rw [get_missing_chunks, if_neg (by simp [hfr]), hSO]
  have hSOfacts : SO ≠ ∅ ∧ c0 ∈ chunks ∧ chunk_has_missing SO c0 = true := by
    rw [hold] at hc0miss
    by_cases hso : SO = ∅
    · rw [if_pos hso] at hc0miss
      simp at hc0miss
    · rw [if_neg hso] at hc0miss
      obtain ⟨hc0chunks, hpred⟩ := List.mem_filter.mp hc0miss
      exact ⟨hso, hc0chunks, hpred⟩
  obtain ⟨hSOne, hc0in, hc0pred⟩ := hSOfacts
  have hold' : get_missing_chunks env p chunks = chunks.filter (chunk_has_missing SO) := by
    rw [hold, if_neg hSOne]
  have hnew : get_missing_chunks env' p chunks =
      if SN = ∅ then [] else chunks.filter (chunk_has_missing SN) := by
    rw [get_missing_chunks, if_neg (by simp [hfr]), hSN]
  by_cases hsn : SN = ∅
  · rw [hnew, if_pos hsn, hold']
    symm
    rw [List.filter_eq_nil_iff]
    intro c hcmem
    obtain ⟨hc, hpredc⟩ := List.mem_filter.mp hcmem
    simp only [decide_eq_true_eq, Decidable.not_not]
    by_contra hne
    rw [chunk_has_missing, List.any_eq_true] at hpredc
    obtain ⟨f, hf, hfSO⟩ := hpredc
    rw [decide_eq_true_eq] at hfSO
    have hfnotc0 : f ∉ get_frame_range c0.first c0.last :=
      hdisj c hc c0 hc0in hne f hf
    have : f ∈ SN := ((hkey f).2 hfnotc0).mpr hfSO
    rw [hsn] at this
    simp at this
  · rw [hnew, if_neg hsn, hold']
    rw [List.filter_filter]
    apply List.filter_congr
    intro c hc
    by_cases hce : c = c0
    · subst hce
      have hfalse : chunk_has_missing SN c = false := by
        cases hh : chunk_has_missing SN c with
        | false => rfl
        | true =>
            rw [chunk_has_missing, List.any_eq_true] at hh
            obtain ⟨f, hf, hfSN⟩ := hh
            rw [decide_eq_true_eq] at hfSN
            exact absurd hfSN ((hkey f).1 hf)
      rw [hfalse]
      simp
    · have heq : chunk_has_missing SN c = chunk_has_missing SO c := by
        rw [chunk_has_missing, chunk_has_missing]
        cases hh : (get_frame_range c.first c.last).any (fun f => decide (f ∈ SO)) with
        | true =>
            rw [List.any_eq_true] at hh ⊢
            obtain ⟨f, hf, hfSO⟩ := hh
            rw [decide_eq_true_eq] at hfSO
            have hfnotc0 : f ∉ get_frame_range c0.first c0.last :=
              hdisj c hc c0 hc0in hce f hf
            exact ⟨f, hf, by
              rw [decide_eq_true_eq]
              exact ((hkey f).2 hfnotc0).mpr hfSO⟩
        | false =>
            rw [List.any_eq_false] at hh ⊢
            intro f hf
            have hfnotc0 : f ∉ get_frame_range c0.first c0.last :=
              hdisj c hc c0 hc0in hce f hf
            have := hh f hf
            rw [decide_eq_true_eq] at this ⊢
            intro hfSN
            exact this (((hkey f).2 hfnotc0).mp hfSN)
      rw [heq]
      simp [hce]

def envW : FsEnv :=
  { camDirs := fun _ => none, sampleExt := fun _ => none,
    dstProtocol := fun _ => some "s3", listing := fun _ => some ["000001.tar"] }

def envW' : FsEnv :=
  { camDirs := fun _ => none, sampleExt := fun _ => none,
    dstProtocol := fun _ => some "s3",
    listing := fun _ => some (["000001.tar"] ++ ["000000.tar"]) }

def pW : PParams :=
  { app := "Transfer", force_recompute := false, dst_level := DstLevel.single none,
    output_formats := "", file_type := "" }

theorem splitOn_empty_comma : ("".splitOn ",") = [""] := by
  simp [String.splitOn]
  rw [String.splitOnAux]
  simp [String.atEnd, String.extract]
  intro h
  exact absurd rfl h

/-- Witness for C8: dropping the expected archive of the missing chunk
`[0,0]` into the listing removes exactly that chunk. -/
theorem C8_witness :
    (⟨0, 0⟩ : FrameChunk) ∈ get_missing_chunks envW pW [⟨0, 0⟩, ⟨1, 1⟩] ∧
    get_missing_chunks envW' pW [⟨0, 0⟩, ⟨1, 1⟩]
      = (get_missing_chunks envW pW [⟨0, 0⟩, ⟨1, 1⟩]).filter
          (fun c => decide (c ≠ ⟨0, 0⟩)) :=
  ⟨by decide, C8_monotonicity envW envW' pW [⟨0, 0⟩, ⟨1, 1⟩] ⟨0, 0⟩
    (fun _ => ["000000.tar", "000001.tar"]) (fun _ => ["000000.tar"])
    (fun _ => ["000001.tar"])
    rfl (by decide)
    (by intro lvl _
        simp [pW, envW, wfFns, splitOn_empty_comma, noDotSlash])
    (by decide) (by decide) (by decide)
    (by decide) (by decide) (by decide)⟩

/-! ### network.py download path (claim C9)

`Address.__init__` splits the address on the protocol delimiter `"://"`;
a malformed address (more than one delimiter, or a protocol part with no
`/` after it) raises, modelled as `none`.  `download` shells out to
`aws s3 cp` on the s3 branch (returning `True`) and is a no-op returning
`False` otherwise; network commands are recorded as a trace of
`NetAction`s.  `download_image_type` mirrors
`network.download_image_type`: it computes the remote path, and on the
s3 branch downloads the per-frame tar archives and extracts them — but
its `return False` sits outside the `if`, so it returns `False` on both
branches. -/

def splitOn3 : List Char → List (List Char)
  | [] => [[]]
  | ':' :: '/' :: '/' :: rest => [] :: splitOn3 rest
  | c :: rest =>
    match splitOn3 rest with
    | [] => [[c]]
    | p :: ps => (c :: p) :: ps

def splitFirstSlash : List Char → Option (List Char × List Char)
  | [] => none
  | '/' :: rest => some ([], rest)
  | c :: rest => (splitFirstSlash rest).map (fun p => (c :: p.1, p.2))

structure AddressT where
  address : String
  protocol : Option String
  ip_path : String
  ip : Option String
  path : String
deriving DecidableEq

def Address (address : String) : Option AddressT :=
  match splitOn3 address.data with
  | [_] => some ⟨address, none, address, none, address⟩
  | [pr, rest] =>
    match splitFirstSlash rest with
    | some ip_path => some ⟨address, some ⟨pr⟩, ⟨rest⟩, some ⟨ip_path.1⟩, ⟨ip_path.2⟩⟩
    | none => none
  | _ => none

def DOCKER_ROOT : String := "/app/facebook360_dep"

def DOCKER_INPUT_ROOT : String := DOCKER_ROOT ++ "/" ++ "project"

def DOCKER_OUTPUT_ROOT : String := DOCKER_INPUT_ROOT ++ "/" ++ "video"

def startsWithSlash (s : String) : Bool :=
  match s.data with
  | '/' :: _ => true
  | _ => false

def endsWithSlash (s : String) : Bool :=
  match s.data.getLast? with
  | some '/' => true
  | _ => false

/-- `os.path.join` for two components. -/
def pathJoin (a b : String) : String :=
  if startsWithSlash b then b
  else if a = "" || endsWithSlash a then a ++ b
  else a ++ "/" ++ b

def image_type_paths : List (String × String) :=
  [("background_color", "background/color"),
   ("background_color_levels", "background/color_levels"),
   ("background_disp", "background/disparity"),
   ("background_disp_levels", "background/disparity_levels"),
   ("background_disp_upsample", "background/disparity_upsample"),
   ("bin", "bin"),
   ("color", "video/color"),
   ("color_levels", "video/color_levels"),
   ("confidence", "confidence"),
   ("cost", "cost"),
   ("disparity", "disparity"),
   ("disparity_upsample", "disparity_upsample"),
   ("disparity_levels", "disparity_levels"),
   ("disparity_time_filtered", "disparity_time_filtered"),
   ("disparity_time_filtered_levels", "disparity_time_filtered_levels"),
   ("exports", "exports"),
   ("exports_cubecolor", "exports/cubecolor"),
   ("exports_cubedisp", "exports/cubedisp"),
   ("exports_eqrcolor", "exports/eqrcolor"),
   ("exports_eqrdisp", "exports/eqrdisp"),
   ("exports_lr180", "exports/lr180"),
   ("exports_tb3dof", "exports/tb3dof"),
   ("exports_tbstereo", "exports/tbstereo"),
   ("foreground_masks", "video/foreground_masks"),
   ("foreground_masks_levels", "video/foreground_masks_levels"),
   ("fused", "fused"),
   ("mismatches", "mismatches"),
   ("video_bin", "video/bin"),
   ("video_disp", "video/disparity"),
   ("video_disp_levels", "video/disparity_levels"),
   ("video_fused", "video/fused")]

def type_to_levels_type : List (String × String) :=
  [("background_disp", "background_disp_levels"),
   ("background_color", "background_color_levels"),
   ("color", "color_levels"),
   ("disparity", "disparity_levels"),
   ("disparity_time_filtered", "disparity_time_filtered_levels"),
   ("foreground_masks", "foreground_masks_levels")]

def input_types : List String :=
  ["background_color", "background_color_levels", "background_disp",
   "background_disp_levels", "background_disp_upsample", "color",
   "color_levels", "foreground_masks", "foreground_masks_levels"]

def output_types : List String :=
  ["bin", "confidence", "cost", "disparity", "disparity_upsample",
   "disparity_levels", "disparity_time_filtered",
   "disparity_time_filtered_levels", "fused", "mismatches", "exports",
   "exports_cubecolor", "exports_cubedisp", "exports_eqrcolor",
   "exports_eqrdisp", "exports_lr180", "exports_tb3dof",
   "exports_tbstereo"]

/-- `_get_image_root_type`: a `KeyError` on an unknown type is `none`. -/
def get_image_root_type (image_type : String) : Option String :=
  if image_type ∈ input_types then some "input"
  else if image_type ∈ output_types then some "output"
  else none

/-- The fields of the RabbitMQ message dict that the download path reads. -/
structure Msg where
  input_root : String
  output_root : String
  app : String
  output_formats : String
  file_type : String
  first : Nat
  last : Nat
deriving DecidableEq

def remote_image_type_path (msg : Msg) (image_type0 : String)
    (level : Option Nat) : Option String :=
  (match level with
   | none => some image_type0
   | some _ => List.lookup image_type0 type_to_levels_type).bind fun image_type =>
  (get_image_root_type image_type).bind fun image_root_type =>
  (List.lookup image_type image_type_paths).map fun rel =>
    match level with
    | none =>
      pathJoin (if image_root_type = "input" then msg.input_root else msg.output_root) rel
    | some l =>
      pathJoin
        (pathJoin (if image_root_type = "input" then msg.input_root else msg.output_root) rel)
        ("level_" ++ Nat.repr l)

def local_image_type_path (_msg : Msg) (image_type0 : String)
    (level : Option Nat) : Option String :=
  (match level with
   | none => some image_type0
   | some _ => List.lookup image_type0 type_to_levels_type).bind fun image_type =>
  (get_image_root_type image_type).bind fun image_root_type =>
  (List.lookup image_type image_type_paths).map fun rel =>
    match level with
    | none =>
      pathJoin (if image_root_type = "input" then DOCKER_INPUT_ROOT else DOCKER_OUTPUT_ROOT) rel
    | some l =>
      pathJoin
        (pathJoin (if image_root_type = "input" then DOCKER_INPUT_ROOT else DOCKER_OUTPUT_ROOT) rel)
        ("level_" ++ Nat.repr l)

/-- Externally visible side effects of the download/cleanup path. -/
inductive NetAction where
  | awsCpFile (src dst : String)
  | awsCpRecursive (src dst : String) (filters : List String)
  | extractTar (dst fn : String)
  | rmtree (dir : String)
deriving DecidableEq

/-- `network.download`: s3 sources shell out to `aws s3 cp` and return
`True`; everything else is a no-op returning `False`. -/
def download (src dst : String) (filters : List String) :
    Option (List NetAction × Bool) :=
  (Address src).map fun remote =>
    if remote.protocol = some "s3" then
      if (basename remote.path).data.contains '.' then
        ([NetAction.awsCpFile remote.address dst], true)
      else
        ([NetAction.awsCpRecursive remote.address dst filters], true)
    else ([], false)

/-- `_netop_helper` with `netop = download`: `completed &= netop(...)`
over the frame file names. -/
def netop_helper (src dst : String) (frame_fns : List String) :
    Option (List NetAction × Bool) :=
  frame_fns.foldlM
    (fun acc fn =>
      (download (pathJoin src fn) (pathJoin dst fn) []).map fun r =>
        (acc.1 ++ r.1, acc.2 && r.2))
    ([], true)

def download_image_type (msg : Msg) (image_type : String)
    (frames : List String) (level : Option Nat) :
    Option (List NetAction × Bool) :=
  (remote_image_type_path msg image_type level).bind fun src0 =>
  (Address src0).bind fun remote =>
  if remote.protocol = some "s3" then
    (remote_image_type_path msg image_type level).bind fun src =>
    (local_image_type_path msg image_type level).bind fun dst =>
    (get_frame_fns msg.app msg.output_formats msg.file_type none none frames false).bind
      fun frame_tar_fns =>
    (netop_helper src dst frame_tar_fns).map fun res =>
      (res.1 ++
        (if res.2 then
          frame_tar_fns.map (fun fn => NetAction.extractTar dst (pathJoin dst fn))
        else []),
       false)
  else some ([], false)

def download_image_types (msg : Msg)
    (image_type_to_level : List (String × Option Nat))
    (frames0 : Option (List String)) : Option (List NetAction × Bool) :=
  image_type_to_level.foldlM
    (fun acc p =>
      (download_image_type msg p.1
        (frames0.getD (get_frame_range msg.first msg.last)) p.2).map fun r =>
        (acc.1 ++ r.1, acc.2 || r.2))
    ([], false)

/-- `worker._clean_worker`; note both guards test `DOCKER_INPUT_ROOT`
for existence. -/
def clean_worker (ran_download ran_upload input_root_exists : Bool) :
    List NetAction :=
  (if ran_download && input_root_exists then [NetAction.rmtree DOCKER_INPUT_ROOT] else []) ++
  (if ran_upload && input_root_exists then [NetAction.rmtree DOCKER_OUTPUT_ROOT] else [])

theorem download_image_type_false (msg : Msg) (image_type : String)
    (frames : List String) (level : Option Nat) (r : List NetAction × Bool)
    (h : download_image_type msg image_type frames level = some r) :
    r.2 = false := by
  simp only [download_image_type, Option.bind_eq_some] at h
  obtain ⟨src0, hsrc0, remote, hrem, h⟩ := h
  split at h
  · simp only [Option.bind_eq_some, Option.map_eq_some'] at h
    obtain ⟨src, hsrc, dst, hdst, fns, hfns, res, hres, hr⟩ := h
    rw [← hr]
  · cases h
    rfl

theorem foldl_dit_snd (msg : Msg) (frames0 : Option (List String)) :
    ∀ (itl : List (String × Option Nat)) (acc r : List NetAction × Bool),
      itl.foldlM
        (fun acc p =>
          (download_image_type msg p.1
            (frames0.getD (get_frame_range msg.first msg.last)) p.2).map fun q =>
            (acc.1 ++ q.1, acc.2 || q.2)) acc = some r →
      r.2 = acc.2 := by
  intro itl
  induction itl with
  | nil =>
    intro acc r h
    cases h
    rfl
  | cons p t ih =>
    intro acc r h
    rw [List.foldlM_cons] at h
    simp only [Option.bind_eq_bind, Option.bind_eq_some, Option.map_eq_some'] at h
    obtain ⟨acc2, ⟨q, hq, hacc2⟩, hrest⟩ := h
    have hq2 : q.2 = false := download_image_type_false msg p.1 _ p.2 q hq
    have := ih acc2 r hrest
    rw [this, ← hacc2]
    simp [hq2]

/-- **C9.** `download_image_type` returns `False` on every input —
including the s3 branch that actually downloads and extracts archives —
so `download_image_types` (which ORs these results into its
`ran_download` flag) also always returns `False`, and `_clean_worker`
called with that flag never removes the `DOCKER_INPUT_ROOT` scratch
directory. -/
theorem C9_download_returns_false :
    (∀ (msg : Msg) (image_type : String) (frames : List String)
       (level : Option Nat) (r : List NetAction × Bool),
       download_image_type msg image_type frames level = some r → r.2 = false) ∧
    (∀ (msg : Msg) (itl : List (String × Option Nat))
       (frames0 : Option (List String)) (r : List NetAction × Bool),
       download_image_types msg itl frames0 = some r → r.2 = false) ∧
    (∀ (msg : Msg) (itl : List (String × Option Nat))
       (frames0 : Option (List String)) (r : List NetAction × Bool)
       (ran_upload input_root_exists : Bool),
       download_image_types msg itl frames0 = some r →
       NetAction.rmtree DOCKER_INPUT_ROOT ∉
         clean_worker r.2 ran_upload input_root_exists) := by
  have hb : ∀ (msg : Msg) (itl : List (String × Option Nat))
      (frames0 : Option (List String)) (r : List NetAction × Bool),
      download_image_types msg itl frames0 = some r → r.2 = false := by
    intro msg itl frames0 r h
    exact foldl_dit_snd msg frames0 itl ([], false) r h
  refine ⟨fun msg it frames level r h => download_image_type_false msg it frames level r h,
    hb, ?_⟩
  intro msg itl frames0 r ran_upload input_root_exists h
  rw [hb msg itl frames0 r h]
  simp only [clean_worker, Bool.false_and, if_neg (by simp : ¬(false = true))]
  intro hmem
  simp only [List.nil_append] at hmem
  split at hmem
  · simp only [List.mem_singleton, NetAction.rmtree.injEq] at hmem
    have : DOCKER_INPUT_ROOT ≠ DOCKER_OUTPUT_ROOT := by decide
    exact this hmem
  · exact (List.not_mem_nil _ hmem)

def msgEx9 : Msg :=
  { input_root := "s3://bucket/proj", output_root := "s3://bucket/proj/video",
    app := "Transfer", output_formats := "", file_type := "",
    first := 0, last := 0 }

def itlEx9 : List (String × Option Nat) := [("color", none)]

/-- Witness for C9 at a concrete s3-rooted message. -/
theorem C9_witness :
    (download_image_type msgEx9 "color" [] none = some ([], false)) ∧
    ((([] : List NetAction), false)).2 = false ∧
    (download_image_types msgEx9 itlEx9 (some []) = some ([], false)) ∧
    NetAction.rmtree DOCKER_INPUT_ROOT ∉ clean_worker false true true :=
  ⟨by decide,
   C9_download_returns_false.1 msgEx9 "color" [] none ([], false) (by decide),
   by decide,
   C9_download_returns_false.2.2 msgEx9 itlEx9 (some []) ([], false) true true (by decide)⟩

/-! ### pipeline.py depth_estimation (claim C10)

`Pipeline.depth_estimation` textually contains its coarsest-level
batching block and its per-level loop twice (pipeline.py 364-432 and
434-502).  Each `run_halted_queue` call site is modelled as a `Job`
(the update dict applied to a copy of `post_resize_params`) paired with
which chunk list was passed.  `start_level` is an `int` that the
batching block mutates (`start_level = batch_end - 1`), which is why
the two textually identical blocks need not dispatch the same jobs. -/

def WIDTHS : List Nat := [2048, 1024, 512, 256, 200, 128, 100, 80, 60, 50]

def type_to_upsample_type : List (String × String) :=
  [("disparity", "disparity_upsample"),
   ("background_disp", "background_disp_upsample")]

structure DepthParams where
  disparity_type : String
  level_start : Int
  level_end : Int
  resolution : Nat
  do_temporal_filter : Bool
  do_temporal_masking : Bool
  coarsest_batch_levels : Nat
deriving DecidableEq

/-- The second argument of each `run_halted_queue` call: the lists are
computed once before both blocks, so only their identity matters. -/
inductive ChunkArg where
  | frameChunks
  | filterRanges
  | backgroundFrame
deriving DecidableEq

/-- One `run_halted_queue` call site, identified by the keys its update
dict writes (the shared copied fields are constant over the run). -/
inductive Job where
  | batched (level_start level_end : Int) (image_type : String)
      (dst_level : List Int) (dst_image_type : String)
  | depth (level : Int) (pfm : Bool) (image_type dst_image_type : String)
  | temporalFilter (level : Int) (use_foreground_masks : Bool)
      (dst_image_type : String)
  | transfer (src_level : Option Int) (src_image_type : String)
      (dst_level : Option Int) (dst_image_type : String)
      (force_recompute : Option Bool)
  | upsample (level : Int) (image_type : String) (dst_level : Option Int)
      (dst_image_type : String)
deriving DecidableEq

def descRangeAux (s : Int) : Nat → List Int
  | 0 => []
  | n + 1 => s :: descRangeAux (s - 1) n

/-- `range(s, e - 1, -1)` for ints: `s` down to `e` inclusive. -/
def descRange (s e : Int) : List Int :=
  if s < e then [] else descRangeAux s ((s - e).toNat + 1)

/-- `list(range(e, s + 1))` for ints: `e` up to `s` inclusive. -/
def ascRange (e s : Int) : List Int :=
  if s < e then [] else (List.range ((s - e).toNat + 1)).map (fun i => e + i)

def start_level0 (p : DepthParams) : Int :=
  if p.level_start != -1 then p.level_start else (WIDTHS.length : Int) - 1

/-- `end_level`; `none` models the `NameError` when no width fits. -/
def end_level_of (p : DepthParams) : Option Int :=
  if p.level_end != -1 then some p.level_end
  else (WIDTHS.findIdx? (fun w => decide (w ≤ p.resolution))).map (fun l => (l : Int))

/-- One iteration of the per-level loop: depth job, then the temporal
filter and forced transfer when `do_temporal_filter` is set. -/
def level_jobs (p : DepthParams) (e level : Int) : List (Job × ChunkArg) :=
  (Job.depth level (level != e) p.disparity_type p.disparity_type,
   ChunkArg.frameChunks) ::
  (if p.do_temporal_filter then
    [(Job.temporalFilter level p.do_temporal_masking "disparity_time_filtered",
      ChunkArg.filterRanges),
     (Job.transfer (some level) "disparity_time_filtered" (some level)
        "disparity" (some true),
      ChunkArg.frameChunks)]
  else [])

/-- The coarsest-batch block: the dispatched jobs and the value of
`start_level` afterwards (mutated to `batch_end - 1` when it fires). -/
def batch_block (p : DepthParams) (e s : Int) : List (Job × ChunkArg) × Int :=
  if p.coarsest_batch_levels > 0 then
    if max e (s - (p.coarsest_batch_levels : Int) + 1) ≤ s then
      ([(Job.batched s (max e (s - (p.coarsest_batch_levels : Int) + 1))
          p.disparity_type
          (ascRange (max e (s - (p.coarsest_batch_levels : Int) + 1)) s)
          p.disparity_type,
         ChunkArg.frameChunks)],
       max e (s - (p.coarsest_batch_levels : Int) + 1) - 1)
    else ([], s)
  else ([], s)

/-- One occurrence of the duplicated block: batch, then the loop from
the (possibly mutated) `start_level` down to `end_level`. -/
def pass_block (p : DepthParams) (e s : Int) : List (Job × ChunkArg) × Int :=
  ((batch_block p e s).1 ++
    (descRange (batch_block p e s).2 e).flatMap (level_jobs p e),
   (batch_block p e s).2)

/-- Python list indexing (negative indices count from the end). -/
def pyIndex (l : List Nat) (i : Int) : Option Nat :=
  if 0 ≤ i then l[i.toNat]?
  else if 0 ≤ (l.length : Int) + i then l[((l.length : Int) + i).toNat]?
  else none

/-- The final upsample/transfer step after the two blocks. -/
def tail_jobs (p : DepthParams) (e : Int) : Option (List (Job × ChunkArg)) :=
  (pyIndex WIDTHS e).bind fun w =>
  if p.resolution > w then
    (List.lookup "disparity" type_to_upsample_type).bind fun ut =>
    (if p.disparity_type = "background_disp" then some ChunkArg.backgroundFrame
     else if p.disparity_type = "disparity" then some ChunkArg.frameChunks
     else none).map fun ca =>
      [(Job.upsample e p.disparity_type (if e > 0 then some (e - 1) else none) ut, ca),
       (Job.transfer none ut none p.disparity_type none, ca)]
  else
    some [(Job.transfer (some e) p.disparity_type none p.disparity_type none,
           ChunkArg.frameChunks)]

/-- The full sequence of `run_halted_queue` calls made by
`depth_estimation`: the duplicated block twice (threading the mutated
`start_level` from the first into the second), then the tail. -/
def depth_estimation_trace (p : DepthParams) : Option (List (Job × ChunkArg)) :=
  match end_level_of p with
  | none => none
  | some e =>
    (tail_jobs p e).map fun tail =>
      (pass_block p e (start_level0 p)).1 ++
      (pass_block p e (pass_block p e (start_level0 p)).2).1 ++ tail

/-- The per-level loop jobs of one block when the batch does not fire. -/
def passJobs (p : DepthParams) (e : Int) : List (Job × ChunkArg) :=
  (descRange (start_level0 p) e).flatMap (level_jobs p e)

/-- The temporal-filter-path Transfer job at a level
(`force_recompute = True`). -/
def tTransfer (lvl : Int) : Job :=
  Job.transfer (some lvl) "disparity_time_filtered" (some lvl) "disparity"
    (some true)

theorem count_level_jobs (p : DepthParams) (e l lvl : Int) :
    (level_jobs p e l).count (tTransfer lvl, ChunkArg.frameChunks) =
      if p.do_temporal_filter = true ∧ l = lvl then 1 else 0 := by
  by_cases hdtf : p.do_temporal_filter = true
  · by_cases hl : l = lvl
    · simp [level_jobs, hdtf, hl, tTransfer, List.count_cons]
    · simp [level_jobs, hdtf, hl, tTransfer, List.count_cons]
  · simp [level_jobs, hdtf, tTransfer, List.count_cons]

theorem count_flatMap_zero (p : DepthParams) (e lvl : Int) :
    ∀ ls : List Int, lvl ∉ ls →
      (ls.flatMap (level_jobs p e)).count (tTransfer lvl, ChunkArg.frameChunks) = 0 := by
  intro ls
  induction ls with
  | nil => intro _; rfl
  | cons x t ih =>
    intro h
    rw [List.flatMap_cons, List.count_append, count_level_jobs]
    have hx : ¬(x = lvl) := fun hh => h (hh ▸ List.mem_cons_self x t)
    simp only [hx, and_false, if_false]
    rw [Nat.zero_add]
    exact ih (fun hm => h (List.mem_cons_of_mem _ hm))

theorem count_flatMap_one (p : DepthParams) (e lvl : Int)
    (hdtf : p.do_temporal_filter = true) :
    ∀ ls : List Int, ls.Nodup → lvl ∈ ls →
      (ls.flatMap (level_jobs p e)).count (tTransfer lvl, ChunkArg.frameChunks) = 1 := by
  intro ls
  induction ls with
  | nil => intro _ hm; exact absurd hm (List.not_mem_nil lvl)
  | cons x t ih =>
    intro hnd hm
    rw [List.flatMap_cons, List.count_append, count_level_jobs]
    rcases List.mem_cons.mp hm with rfl | hm2
    · simp only [hdtf, and_self, if_true]
      rw [count_flatMap_zero p e lvl t (List.nodup_cons.mp hnd).1]
    · have hx : ¬(x = lvl) := by
        intro hh
        exact (List.nodup_cons.mp hnd).1 (hh ▸ hm2)
      simp only [hx, and_false, if_false]
      rw [ih (List.nodup_cons.mp hnd).2 hm2]

theorem descRangeAux_mem : ∀ (n : Nat) (s x : Int),
    x ∈ descRangeAux s n ↔ s - n < x ∧ x ≤ s := by
  intro n
  induction n with
  | zero =>
    intro s x
    simp only [descRangeAux, List.not_mem_nil, false_iff]
    omega
  | succ m ih =>
    intro s x
    simp only [descRangeAux, List.mem_cons, ih (s - 1) x]
    omega

theorem descRangeAux_nodup : ∀ (n : Nat) (s : Int), (descRangeAux s n).Nodup := by
  intro n
  induction n with
  | zero =>
    intro s
    exact List.nodup_nil
  | succ m ih =>
    intro s
    refine List.nodup_cons.mpr ⟨?_, ih (s - 1)⟩
    intro hmem
    rw [descRangeAux_mem] at hmem
    omega

theorem descRange_nodup (s e : Int) : (descRange s e).Nodup := by
  unfold descRange
  split
  · exact List.nodup_nil
  · exact descRangeAux_nodup _ _

theorem tail_count_zero (p : DepthParams) (e : Int)
    (tail : List (Job × ChunkArg)) (h : tail_jobs p e = some tail) (lvl : Int) :
    tail.count (tTransfer lvl, ChunkArg.frameChunks) = 0 := by
  unfold tail_jobs at h
  simp only [Option.bind_eq_some] at h
  obtain ⟨w, hw, h⟩ := h
  split at h
  · simp only [Option.bind_eq_some, Option.map_eq_some'] at h
    obtain ⟨ut, hut, ca, hca, htail⟩ := h
    rw [← htail]
    simp [tTransfer, List.count_cons]
  · rw [Option.some.injEq] at h
    rw [← h]
    simp [tTransfer, List.count_cons]

/-- **C10 (amended).** When `coarsest_batch_levels = 0` the batching
block never fires, `start_level` is not mutated, and the duplicated
block really is an identical second pass: the trace is the per-level
job sequence twice followed by the tail, and every temporal-filter-path
Transfer job (with `force_recompute = True`) is dispatched exactly
twice.  (The unconditional claim fails when `coarsest_batch_levels > 0`:
see the counterexample, where the first block mutates `start_level` and
the second pass covers fewer levels.) -/
theorem C10_duplicated_block (p : DepthParams) (e : Int)
    (tr : List (Job × ChunkArg))
    (hcb : p.coarsest_batch_levels = 0)
    (he : end_level_of p = some e)
    (htr : depth_estimation_trace p = some tr) :
    ∃ tail, tail_jobs p e = some tail ∧
      tr = passJobs p e ++ passJobs p e ++ tail ∧
      ∀ lvl : Int, p.do_temporal_filter = true →
        lvl ∈ descRange (start_level0 p) e →
        tr.count (tTransfer lvl, ChunkArg.frameChunks) = 2 := by
  have hbb : ∀ s, batch_block p e s = ([], s) := by
    intro s
    simp [batch_block, hcb]
  have hpb : ∀ s, pass_block p e s = ((descRange s e).flatMap (level_jobs p e), s) := by
    intro s
    simp [pass_block, hbb]
  unfold depth_estimation_trace at htr
  rw [he] at htr
  dsimp only at htr
  simp only [hpb] at htr
  simp only [Option.map_eq_some'] at htr
  obtain ⟨tail, htail, htr⟩ := htr
  refine ⟨tail, htail, htr.symm, ?_⟩
  intro lvl hdtf hmem
  rw [← htr]
  simp only [List.count_append]
  rw [count_flatMap_one p e lvl hdtf _ (descRange_nodup _ _) hmem,
    tail_count_zero p e tail htail lvl]

def pCE : DepthParams :=
  { disparity_type := "disparity", level_start := -1, level_end := -1,
    resolution := 2048, do_temporal_filter := true,
    do_temporal_masking := false, coarsest_batch_levels := 2 }

/-- **C10 counterexample.** With `coarsest_batch_levels = 2` (and the
default full level range, resolution 2048) the first block batches
levels 8-9 and mutates `start_level` to 7, so its loop covers 7..0;
the second block then batches 6-7 and loops over 5..0.  The second pass
is not identical to the first, and the temporal-filter-path Transfer
job at level 7 is dispatched exactly once, not twice. -/
theorem C10_counterexample :
    (depth_estimation_trace pCE).map
      (fun tr => tr.count (tTransfer 7, ChunkArg.frameChunks)) = some 1 := by
  decide

def pW10 : DepthParams :=
  { disparity_type := "disparity", level_start := 1, level_end := 0,
    resolution := 1024, do_temporal_filter := true,
    do_temporal_masking := false, coarsest_batch_levels := 0 }

def trW10 : List (Job × ChunkArg) := (depth_estimation_trace pW10).getD []

/-- Witness for the amended C10 at a concrete two-level run without
batching. -/
theorem C10_witness :
    pW10.coarsest_batch_levels = 0 ∧ end_level_of pW10 = some 0 ∧
    depth_estimation_trace pW10 = some trW10 ∧
    (∃ tail, tail_jobs pW10 0 = some tail ∧
      trW10 = passJobs pW10 0 ++ passJobs pW10 0 ++ tail ∧
      ∀ lvl : Int, pW10.do_temporal_filter = true →
        lvl ∈ descRange (start_level0 pW10) 0 →
        trW10.count (tTransfer lvl, ChunkArg.frameChunks) = 2) :=
  ⟨rfl, by decide, by decide,
   C10_duplicated_block pW10 0 trW10 rfl (by decide) (by decide)⟩
